import Mathlib

/-! HarAnalyzer: the aggregation pass and the report of `UniversalHarAnalyzer.go`

A shallow embedding of the analysis pipeline of the HAR analyzer
(`AnalyzeHARFile` and the helpers it calls, `generateMarkdownReport` and
`writeTopItemsFiltered`) together with theorems about it.

Modelling conventions.

* A Go `string` is a `List Char` (`Str`).  The programs only inspect ASCII
  characters (`/`, `?`, `#`, `=`, `&`, the space, letters), and for valid UTF-8
  text a substring test on bytes and on code points agree.
* A Go `map[string]T` is an association list with pairwise distinct keys, kept
  in the order in which the keys were first inserted.  Assignment to an
  existing key updates the binding in place.  The order in which `range`
  visits a map is not fixed by the language; it is supplied by the `Runtime`.
* Counters are natural numbers: every counter in the program is bounded by the
  number of entries, header lines or body keys held in memory, far below the
  range of a 64-bit `int`.
* Library routines whose code is not part of the repository (`sort.Slice`,
  `json.Unmarshal`, `time.Parse`, time formatting) are fields of `Runtime`,
  constrained by the contracts stated in their documentation.
-/

namespace HarAnalyzer

/-- Go strings, as lists of characters. -/
abbrev Str := List Char

/-! ## The `strings` and `fmt` routines used by the analyzer -/

/-- The routine `strings.Contains(s, substr)`: some suffix of `s` starts with `substr`. -/
def stringsContains : Str → Str → Bool
  | [], substr => substr.isPrefixOf []
  | c :: cs, substr => substr.isPrefixOf (c :: cs) || stringsContains cs substr

/-- The routine `strings.Split(s, sep)` for a one-character separator: the pieces of `s`
between consecutive occurrences of `sep` (always at least one piece). -/
def stringsSplit (sep : Char) : Str → List Str
  | [] => [[]]
  | c :: cs =>
    if c = sep then [] :: stringsSplit sep cs
    else
      match stringsSplit sep cs with
      | [] => [[c]]
      | p :: ps => (c :: p) :: ps

/-- The routine `strings.SplitN(s, sep, 2)` for a one-character separator: `[s]` when `sep`
does not occur, otherwise the text before the first `sep` and the text after
it. -/
def stringsSplitN2 (sep : Char) : Str → List Str
  | [] => [[]]
  | c :: cs =>
    if c = sep then [[], cs]
    else
      match stringsSplitN2 sep cs with
      | [p, q] => [c :: p, q]
      | _ => [c :: cs]

/-- One rune of `strings.ToLower`: the ASCII capitals, and the two runes outside
ASCII whose lower case is an ASCII letter (U+0130 and the Kelvin sign U+212A).
Go maps every other rune outside ASCII to a rune outside ASCII; these are left
as they are, which no comparison with an ASCII text can tell apart. -/
def toLowerRune (c : Char) : Char :=
  if 'A'.toNat ≤ c.toNat ∧ c.toNat ≤ 'Z'.toNat then Char.ofNat (c.toNat + 32)
  else if c.toNat = 0x130 then 'i'
  else if c.toNat = 0x212A then 'k'
  else c

/-- The routine `strings.ToLower(s)`, rune by rune. -/
def stringsToLower (s : Str) : Str := s.map toLowerRune

/-- The decimal rendering `fmt.Sprintf("%d", n)`. -/
def fmtInt : Int → Str
  | Int.ofNat k => Nat.toDigits 10 k
  | Int.negSucc k => '-' :: Nat.toDigits 10 (k + 1)

/-! ## Go maps -/

/-- The lookup `m[k]` with the comma-ok form: the binding of `k`, if any. -/
def mapGet {β : Type} : List (Str × β) → Str → Option β
  | [], _ => none
  | (k', v) :: rest, k => if k' = k then some v else mapGet rest k

/-- The assignment `m[k] = v`: replaces the binding of `k`, or adds one. -/
def mapSet {β : Type} : List (Str × β) → Str → β → List (Str × β)
  | [], k, v => [(k, v)]
  | (k', v') :: rest, k, v => if k' = k then (k, v) :: rest else (k', v') :: mapSet rest k v

/-- The increment `m[k]++` on a `map[string]int`; a missing key reads as zero. -/
def mapIncr (m : List (Str × Nat)) (k : Str) : List (Str × Nat) :=
  mapSet m k ((mapGet m k).getD 0 + 1)

/-- The count `m[k]` of a frequency map (zero for a missing key). -/
def mapCount (m : List (Str × Nat)) (k : Str) : Nat := (mapGet m k).getD 0

/-- The sum of all counts held in a frequency map. -/
def mapSum (m : List (Str × Nat)) : Nat := (m.map Prod.snd).sum

/-! ## URL decomposition -/

/-- Removes the literal `p` from the front of `s`, if it is there. -/
def stripPrefix : Str → Str → Option Str
  | [], s => some s
  | _ :: _, [] => none
  | p :: ps, c :: cs => if p = c then stripPrefix ps cs else none

/-- The regular-expression fragment `https?://` followed by the continuation
`k`, tried at the front of `s`.  The optional `s` is greedy: the branch that
consumes it is tried first, the branch that skips it second. -/
def matchScheme {α : Type} (k : Str → Option α) (s : Str) : Option α :=
  match stripPrefix "http".toList s with
  | none => none
  | some r =>
    match (stripPrefix "s".toList r).bind (fun r1 => (stripPrefix "://".toList r1).bind k) with
    | some a => some a
    | none => (stripPrefix "://".toList r).bind k

/-- The fragment `[^/]+` followed by the continuation `k`, which receives the
run matched and the remaining input.  Greedy with backtracking: a longer run is
tried before a shorter one.  `acc` is the run consumed so far. -/
def matchNonSlash {α : Type} (k : Str → Str → Option α) : Str → Str → Option α
  | acc, [] => if acc = [] then none else k acc []
  | acc, c :: cs =>
    if c = '/' then (if acc = [] then none else k acc (c :: cs))
    else
      match matchNonSlash k (acc ++ [c]) cs with
      | some a => some a
      | none => if acc = [] then none else k acc (c :: cs)

/-- The first position of `s`, from the left, at which the matcher `m`
succeeds (`FindStringSubmatch` is not anchored). -/
def findLeftmost {α : Type} (m : Str → Option α) : Str → Option α
  | [] => m []
  | c :: cs =>
    match m (c :: cs) with
    | some a => some a
    | none => findLeftmost m cs

/-- The submatch of `https?://([^/]+)` in `url`, if the expression matches. -/
def hostSubmatch (url : Str) : Option Str :=
  findLeftmost (matchScheme (matchNonSlash (fun run _ => some run) [])) url

/-- The submatch of `https?://[^/]+(/[^?#]*)` in `url`, if the expression
matches: after the run of non-slash characters a `/` must follow, and the group
takes it together with the longest run free of `?` and `#`. -/
def pathSubmatch (url : Str) : Option Str :=
  findLeftmost (matchScheme (matchNonSlash (fun _ rest =>
    match rest with
    | '/' :: r => some ('/' :: r.takeWhile (fun c => decide (c ≠ '?') && decide (c ≠ '#')))
    | _ => none) [])) url

/-- The method `extractHost`: the captured authority, or the empty string. -/
def extractHost (url : Str) : Str := (hostSubmatch url).getD []

/-- The method `extractPath`: the captured path, or `/`. -/
def extractPath (url : Str) : Str := (pathSubmatch url).getD "/".toList

/-- The method `addUniqueString`: appends `str` unless it is already in the slice. -/
def addUniqueString (slice : List Str) (str : Str) : List Str :=
  if str ∈ slice then slice else slice ++ [str]

/-! ## Request-body parameters -/

/-- A decoded JSON value (`interface{}` as produced by `encoding/json`).  The
member list of an object is given in the order in which a `range` over the
decoded `map[string]interface{}` visits it. -/
inductive JSONValue where
  | null : JSONValue
  | bool (b : Bool) : JSONValue
  | number (literal : Str) : JSONValue
  | string (s : Str) : JSONValue
  | array (items : List JSONValue) : JSONValue
  | object (members : List (Str × JSONValue)) : JSONValue

/-- The outcome of `json.Unmarshal(data, &jsonData)` for a
`map[string]interface{}` target: an error, success leaving the map nil (the
document is the literal `null`), or success with the members of the object. -/
inductive UnmarshalResult where
  | error : UnmarshalResult
  | nilMap : UnmarshalResult
  | object (members : List (Str × JSONValue)) : UnmarshalResult

/-- The library routines and language-level choices the analyzer relies on. -/
structure Runtime where
  /-- The order in which `range` yields the bindings of a map. -/
  rangeOrder : (β : Type) → List (Str × β) → List (Str × β)
  /-- The routine `sort.Slice(x, less)`. -/
  sortSlice : (α : Type) → (α → α → Bool) → List α → List α
  /-- The routine `json.Unmarshal` into a `map[string]interface{}`. -/
  jsonUnmarshal : Str → UnmarshalResult
  /-- The routine `time.Parse(time.RFC3339, s)`: the instant, counted from the zero
  `time.Time`, or `none` on error. -/
  timeParse : Str → Option Int
  /-- The clock rendering `t.Format("15:04:05")`. -/
  formatClock : Int → Str
  /-- The rendering of `endTime.Sub(startTime).Minutes()` under `%.1f`. -/
  formatMinutes : Int → Int → Str

mutual
/-- The method `extractJSONKeys(data, prefix, params)`: an object counts each of
its keys under the dotted path and recurses into the value; an array recurses
into its items under the indexed path; other values count nothing. -/
def extractJSONKeys : JSONValue → Str → List (Str × Nat) → List (Str × Nat)
  | JSONValue.object members, pre, params => extractJSONMembers members pre params
  | JSONValue.array items, pre, params => extractJSONItems items pre 0 params
  | _, _, params => params
/-- The loop of `extractJSONKeys` over the members of an object. -/
def extractJSONMembers : List (Str × JSONValue) → Str → List (Str × Nat) → List (Str × Nat)
  | [], _, params => params
  | (key, value) :: rest, pre, params =>
    let fullKey := if pre ≠ [] then pre ++ '.' :: key else key
    extractJSONMembers rest pre (extractJSONKeys value fullKey (mapIncr params fullKey))
/-- The loop of `extractJSONKeys` over the items of an array, from index `i`. -/
def extractJSONItems : List JSONValue → Str → Nat → List (Str × Nat) → List (Str × Nat)
  | [], _, _, params => params
  | item :: rest, pre, i, params =>
    let indexKey := pre ++ '[' :: fmtInt (Int.ofNat i) ++ [']']
    extractJSONItems rest pre (i + 1) (extractJSONKeys item indexKey params)
end

/-- The form-data branch of `extractPostParameters`: one `&`-separated pair. -/
def countFormPair (params : List (Str × Nat)) (pair : Str) : List (Str × Nat) :=
  let kv := stringsSplitN2 '=' pair
  if kv.length = 2 then mapIncr params (kv.headD []) else params

/-- The method `extractPostParameters(postData, params)`: the keys of a JSON
object body, else the names of a form-data body, else nothing. -/
def extractPostParameters (rt : Runtime) (postData : Str) (params : List (Str × Nat)) :
    List (Str × Nat) :=
  match rt.jsonUnmarshal postData with
  | UnmarshalResult.object members => extractJSONKeys (JSONValue.object members) [] params
  | UnmarshalResult.nilMap => extractJSONKeys (JSONValue.object []) [] params
  | UnmarshalResult.error =>
    if stringsContains postData "=".toList && stringsContains postData "&".toList then
      (stringsSplit '&' postData).foldl countFormPair params
    else params

/-! ## Classification of content types and headers -/

/-- The method `simplifyContentType`: a cascade of substring tests. -/
def simplifyContentType (contentType : Str) : Str :=
  if stringsContains contentType "json".toList then "JSON".toList
  else if stringsContains contentType "html".toList then "HTML".toList
  else if stringsContains contentType "xml".toList then "XML".toList
  else if stringsContains contentType "javascript".toList then "JavaScript".toList
  else if stringsContains contentType "css".toList then "CSS".toList
  else if stringsContains contentType "image".toList then "Image".toList
  else if stringsContains contentType "text".toList then "Text".toList
  else "Other".toList

/-- The table `important` of `isImportantHeader`. -/
def importantHeaders : List Str :=
  ["authorization".toList, "cookie".toList, "content-type".toList, "accept".toList,
   "user-agent".toList, "referer".toList, "origin".toList, "x-requested-with".toList,
   "x-csrf-token".toList, "x-api-key".toList, "bearer".toList, "token".toList]

/-- The method `isImportantHeader`: some table entry occurs in the lowercased
name. -/
def isImportantHeader (headerName : Str) : Bool :=
  importantHeaders.any (fun imp => stringsContains (stringsToLower headerName) imp)

/-! ## The data model -/

/-- A header or query-string item. -/
structure NameValue where
  Name : Str
  Value : Str
deriving DecidableEq

/-- The field `postData` of a request (only the text is read). -/
structure PostData where
  Text : Str
deriving DecidableEq

/-- The fields of `request` read by the analysis. -/
structure Request where
  Method : Str
  URL : Str
  Headers : List NameValue
  QueryString : List NameValue
  PostData : PostData
deriving DecidableEq

/-- The field `content` of a response (only the MIME type is read). -/
structure Content where
  MimeType : Str
deriving DecidableEq

/-- The fields of `response` read by the analysis. -/
structure Response where
  Status : Int
  Content : Content
deriving DecidableEq

/-- One element of `Log.Entries`. -/
structure Entry where
  StartedDateTime : Str
  Request : Request
  Response : Response
deriving DecidableEq

/-- The record `HostInfo`. -/
structure HostInfo where
  Host : Str
  RequestCount : Nat
  Methods : List Str
  Paths : List Str
deriving DecidableEq

/-- The record `APIInfo`. -/
structure APIInfo where
  Method : Str
  URL : Str
  Host : Str
  Path : Str
  Parameters : List (Str × Str)
  Headers : List (Str × Str)
  ResponseType : Str
  StatusCode : Int
  CallCount : Nat
deriving DecidableEq

/-- The frequency maps `ExtractedData`. -/
structure ExtractedData where
  Parameters : List (Str × Nat)
  Headers : List (Str × Nat)
  ResponseTypes : List (Str × Nat)
  StatusCodes : List (Str × Nat)
  Methods : List (Str × Nat)
  ContentTypes : List (Str × Nat)
deriving DecidableEq

/-- The part of `Metadata` computed from the entries. -/
structure Metadata where
  TotalRequests : Nat
  UniqueHosts : Nat
  TimeSpan : Str
deriving DecidableEq

/-- The record `UniversalAnalysisResult`, without the file name, the analysis time, the
browser and version strings and the code templates. -/
structure UniversalAnalysisResult where
  Metadata : Metadata
  Hosts : List HostInfo
  APIs : List APIInfo
  ExtractedData : ExtractedData
deriving DecidableEq

/-- The variables updated by the loop over the entries. -/
structure AggState where
  startTime : Int
  endTime : Int
  hostMap : List (Str × HostInfo)
  apiMap : List (Str × APIInfo)
  data : ExtractedData

/-! ## The aggregation pass -/

/-- The record stored for a host at its first sighting. -/
def newHostInfo (host : Str) : HostInfo :=
  { Host := host, RequestCount := 0, Methods := [], Paths := [] }

/-- The three updates applied to the host record of an entry. -/
def hostUpdate (entry : Entry) (h : HostInfo) : HostInfo :=
  { h with RequestCount := h.RequestCount + 1,
           Methods := addUniqueString h.Methods entry.Request.Method,
           Paths := addUniqueString h.Paths (extractPath entry.Request.URL) }

/-- The host block of the loop body: the record of the entry's host is created
when missing, then its request count is incremented and the method and path
are added to its sets.  Entries with an empty host leave the map as it is. -/
def hostStep (hostMap : List (Str × HostInfo)) (entry : Entry) : List (Str × HostInfo) :=
  let host := extractHost entry.Request.URL
  if host ≠ [] then
    mapSet hostMap host (hostUpdate entry ((mapGet hostMap host).getD (newHostInfo host)))
  else hostMap

/-- The key `fmt.Sprintf("%s %s", method, ua.extractPath(url))` of an entry. -/
def apiKey (entry : Entry) : Str :=
  entry.Request.Method ++ ' ' :: extractPath entry.Request.URL

/-- The record stored for an API key at its first sighting, before the call
count is incremented. -/
def newAPIInfo (entry : Entry) : APIInfo :=
  { Method := entry.Request.Method,
    URL := entry.Request.URL,
    Host := extractHost entry.Request.URL,
    Path := extractPath entry.Request.URL,
    Parameters := entry.Request.QueryString.foldl (fun m param => mapSet m param.Name param.Value) [],
    Headers := entry.Request.Headers.foldl
      (fun m header => if isImportantHeader header.Name then mapSet m header.Name header.Value else m) [],
    ResponseType := simplifyContentType entry.Response.Content.MimeType,
    StatusCode := entry.Response.Status,
    CallCount := 0 }

/-- The statement `apiMap[apiKey].CallCount++`. -/
def bumpCallCount (a : APIInfo) : APIInfo := { a with CallCount := a.CallCount + 1 }

/-- The API block of the loop body: the record is created at the first sighting
of the key, and the call count is incremented every time. -/
def apiStep (apiMap : List (Str × APIInfo)) (entry : Entry) : List (Str × APIInfo) :=
  mapSet apiMap (apiKey entry) (bumpCallCount ((mapGet apiMap (apiKey entry)).getD (newAPIInfo entry)))

/-- The updates of the frequency maps in the loop body. -/
def dataStep (rt : Runtime) (d : ExtractedData) (entry : Entry) : ExtractedData :=
  let params1 := entry.Request.QueryString.foldl (fun m param => mapIncr m param.Name) d.Parameters
  let contentType := entry.Response.Content.MimeType
  { Methods := mapIncr d.Methods entry.Request.Method,
    StatusCodes := mapIncr d.StatusCodes (fmtInt entry.Response.Status),
    Headers := entry.Request.Headers.foldl (fun m header => mapIncr m header.Name) d.Headers,
    Parameters :=
      if entry.Request.PostData.Text ≠ [] then
        extractPostParameters rt entry.Request.PostData.Text params1
      else params1,
    ContentTypes := if contentType ≠ [] then mapIncr d.ContentTypes contentType else d.ContentTypes,
    ResponseTypes :=
      if contentType ≠ [] then mapIncr d.ResponseTypes (simplifyContentType contentType)
      else d.ResponseTypes }

/-- The body of the loop of `AnalyzeHARFile` for the entry at index `i`. -/
def step (rt : Runtime) (i : Nat) (st : AggState) (entry : Entry) : AggState :=
  let times : Int × Int :=
    match rt.timeParse entry.StartedDateTime with
    | some entryTime =>
      (if i = 0 ∨ entryTime < st.startTime then entryTime else st.startTime,
       if i = 0 ∨ entryTime > st.endTime then entryTime else st.endTime)
    | none => (st.startTime, st.endTime)
  { startTime := times.1,
    endTime := times.2,
    hostMap := hostStep st.hostMap entry,
    apiMap := apiStep st.apiMap entry,
    data := dataStep rt st.data entry }

/-- The loop of `AnalyzeHARFile` over the entries from index `i` on. -/
def loop (rt : Runtime) : Nat → List Entry → AggState → AggState
  | _, [], st => st
  | i, entry :: rest, st => loop rt (i + 1) rest (step rt i st entry)

/-- The state before the loop: zero times and empty maps. -/
def initState : AggState :=
  { startTime := 0, endTime := 0, hostMap := [], apiMap := [],
    data := { Parameters := [], Headers := [], ResponseTypes := [], StatusCodes := [],
              Methods := [], ContentTypes := [] } }

/-- The state after the aggregation pass over all entries. -/
def aggregate (rt : Runtime) (entries : List Entry) : AggState :=
  loop rt 0 entries initState

/-- The comparison passed to `sort.Slice` for the host list. -/
def hostLess (a b : HostInfo) : Bool := decide (a.RequestCount > b.RequestCount)

/-- The comparison passed to `sort.Slice` for the API list. -/
def apiLess (a b : APIInfo) : Bool := decide (a.CallCount > b.CallCount)

/-- The string stored in `Metadata.TimeSpan`. -/
def timeSpan (rt : Runtime) (startTime endTime : Int) : Str :=
  if startTime ≠ 0 ∧ endTime ≠ 0 then
    rt.formatClock startTime ++ " - ".toList ++ rt.formatClock endTime ++
      " (".toList ++ rt.formatMinutes startTime endTime ++ "分钟)".toList
  else []

/-- The method `AnalyzeHARFile` on the decoded entries: the aggregation pass, the
conversion of the two maps to slices, the two sorts and the metadata. -/
def AnalyzeHARFile (rt : Runtime) (entries : List Entry) : UniversalAnalysisResult :=
  let st := aggregate rt entries
  { Metadata :=
      { TotalRequests := entries.length,
        UniqueHosts := st.hostMap.length,
        TimeSpan := timeSpan rt st.startTime st.endTime },
    Hosts := rt.sortSlice HostInfo hostLess ((rt.rangeOrder HostInfo st.hostMap).map Prod.snd),
    APIs := rt.sortSlice APIInfo apiLess ((rt.rangeOrder APIInfo st.apiMap).map Prod.snd),
    ExtractedData := st.data }

/-! ## Contracts of the runtime -/

/-- A `range` over a map yields every binding exactly once. -/
def Runtime.RangeOK (rt : Runtime) : Prop :=
  ∀ (β : Type) (m : List (Str × β)), (rt.rangeOrder β m).Perm m

/-- The requirement of package `sort` on a comparison: it is a strict ordering
(never `less a a`), transitive, and so is its negation. -/
def LessOK {α : Type} (less : α → α → Bool) : Prop :=
  (∀ a, less a a = false) ∧
  (∀ a b c, less a b = true → less b c = true → less a c = true) ∧
  (∀ a b c, less a b = false → less b c = false → less a c = false)

/-- The contract of `sort.Slice`: the result is a rearrangement of the slice in
which no element is `less` than an element before it. -/
def Runtime.SortOK (rt : Runtime) : Prop :=
  ∀ (α : Type) (less : α → α → Bool) (l : List α),
    (rt.sortSlice α less l).Perm l ∧
    (LessOK less → (rt.sortSlice α less l).Pairwise (fun a b => less b a = false))

/-- A stable sort keeps elements that compare as equal in their input order. -/
def Runtime.SortStable (rt : Runtime) : Prop :=
  ∀ (α : Type) (less : α → α → Bool) (l : List α) (x : α), LessOK less →
    (rt.sortSlice α less l).filter (fun y => !less x y && !less y x) =
      l.filter (fun y => !less x y && !less y x)

/-! ## Reference notions for the helper functions -/

/-- The keywords of the content-type classification with their labels, in
priority order. -/
def contentTypeKeywords : List (Str × Str) :=
  [("json".toList, "JSON".toList), ("html".toList, "HTML".toList), ("xml".toList, "XML".toList),
   ("javascript".toList, "JavaScript".toList), ("css".toList, "CSS".toList),
   ("image".toList, "Image".toList), ("text".toList, "Text".toList)]

/-- The classification as the specification words it: the label of the first
keyword of the table that occurs in `s` as a substring, `Other` when none
occurs. -/
def firstKeywordLabel (s : Str) : Str :=
  match contentTypeKeywords.find? (fun kw => decide (kw.1 <:+: s)) with
  | some kw => kw.2
  | none => "Other".toList

/-- The routine `strings.Join(segs, sep)` for a one-character separator. -/
def stringsJoin (sep : Char) : List Str → Str
  | [] => []
  | [s] => s
  | s :: t :: rest => s ++ sep :: stringsJoin sep (t :: rest)

/-- The form-data reading of one `&`-separated segment as the specification
words it: a segment that contains `=` counts the text before its first `=`, a
segment without `=` is skipped. -/
def countSegment (params : List (Str × Nat)) (seg : Str) : List (Str × Nat) :=
  if '=' ∈ seg then mapIncr params (seg.takeWhile (fun c => decide (c ≠ '='))) else params

/-- The body `text` is not decoded as a JSON object: `json.Unmarshal` reports an
error, or it leaves the map nil, which it does only for the literal `null`
(possibly surrounded by blanks). -/
def NotJSONObject (rt : Runtime) (text : Str) : Prop :=
  match rt.jsonUnmarshal text with
  | UnmarshalResult.error => True
  | UnmarshalResult.nilMap => ∀ c ∈ text, c ∈ [' ', '\t', '\n', '\r', 'n', 'u', 'l']
  | UnmarshalResult.object _ => False

/-- The decoded value of the document `{"a":{"b":1},"c":[1,2]}`: the member
`a`. -/
def sampleMemberA : Str × JSONValue :=
  ("a".toList, JSONValue.object [("b".toList, JSONValue.number "1".toList)])

/-- The decoded value of the document `{"a":{"b":1},"c":[1,2]}`: the member
`c`. -/
def sampleMemberC : Str × JSONValue :=
  ("c".toList, JSONValue.array [JSONValue.number "1".toList, JSONValue.number "2".toList])

/-- The text `{"a":{"b":1},"c":[1,2]}`. -/
def sampleBody : Str := "\x7b\"a\":\x7b\"b\":1\x7d,\"c\":[1,2]\x7d".toList

/-! ## First-seen order -/

/-- The position of the first occurrence of `x` in a list (its length when `x`
does not occur). -/
def firstIndex (x : Str) : List Str → Nat
  | [] => 0
  | k :: ks => if k = x then 0 else firstIndex x ks + 1

/-- The position in the file of the first entry with host `h`. -/
def firstHostIndex (entries : List Entry) (h : Str) : Nat :=
  firstIndex h (entries.map (fun e => extractHost e.Request.URL))

/-- The position in the file of the first entry with the key of the record `r`. -/
def firstAPIIndex (entries : List Entry) (r : APIInfo) : Nat :=
  firstIndex (r.Method ++ ' ' :: r.Path) (entries.map apiKey)

/-- Records with equal counts are listed in first-seen order: of two hosts with
the same request count, and of two APIs with the same call count, the one seen
first in the file comes first in the list. -/
def TiesInFirstSeenOrder (entries : List Entry) (res : UniversalAnalysisResult) : Prop :=
  res.Hosts.Pairwise (fun a b =>
    a.RequestCount = b.RequestCount → firstHostIndex entries a.Host < firstHostIndex entries b.Host) ∧
  res.APIs.Pairwise (fun a b =>
    a.CallCount = b.CallCount → firstAPIIndex entries a < firstAPIIndex entries b)

/-! ## A reference runtime

An executable instance of `Runtime`, used to run the analyzer on concrete
inputs: maps are ranged over in insertion order, slices are sorted by insertion
sort, and bodies are decoded by a small JSON reader. -/

/-- JSON white space. -/
def isJSONSpace (c : Char) : Bool := c = ' ' || c = '\t' || c = '\n' || c = '\r'

/-- Drops leading JSON white space. -/
def skipSpace (s : Str) : Str := s.dropWhile isJSONSpace

/-- Reads a JSON string after its opening quote: the decoded text and the input
after the closing quote.  The two-character escapes are decoded; the escape
`\uXXXX` is not supported and makes the reader fail. -/
def readString : Str → Option (Str × Str)
  | [] => none
  | '"' :: rest => some ([], rest)
  | '\\' :: c :: rest =>
    let decoded : Option Char :=
      if c = '"' then some '"' else if c = '\\' then some '\\' else if c = '/' then some '/'
      else if c = 'b' then some (Char.ofNat 8) else if c = 'f' then some (Char.ofNat 12)
      else if c = 'n' then some '\n' else if c = 'r' then some '\r'
      else if c = 't' then some '\t' else none
    match decoded, readString rest with
    | some d, some (text, rest') => some (d :: text, rest')
    | _, _ => none
  | c :: rest =>
    if c.toNat < 32 ∨ c = '\\' then none
    else
      match readString rest with
      | some (text, rest') => some (c :: text, rest')
      | none => none

/-- Reads a non-empty run of decimal digits. -/
def readDigits (s : Str) : Option (Str × Str) :=
  if s.takeWhile Char.isDigit = [] then none
  else some (s.takeWhile Char.isDigit, s.dropWhile Char.isDigit)

/-- Reads a JSON number: the literal and the remaining input. -/
def readNumber (s : Str) : Option (Str × Str) :=
  let signed : Str × Str := match s with
    | '-' :: r => (['-'], r)
    | _ => ([], s)
  let intPart : Option (Str × Str) := match signed.2 with
    | '0' :: r => some (['0'], r)
    | r => readDigits r
  match intPart with
  | none => none
  | some (ds, r1) =>
    let frac : Option (Str × Str) := match r1 with
      | '.' :: r => (readDigits r).map (fun p => ('.' :: p.1, p.2))
      | r => some ([], r)
    match frac with
    | none => none
    | some (fs, r2) =>
      let expo : Option (Str × Str) := match r2 with
        | 'e' :: '+' :: r => (readDigits r).map (fun p => ('e' :: '+' :: p.1, p.2))
        | 'e' :: '-' :: r => (readDigits r).map (fun p => ('e' :: '-' :: p.1, p.2))
        | 'e' :: r => (readDigits r).map (fun p => ('e' :: p.1, p.2))
        | 'E' :: '+' :: r => (readDigits r).map (fun p => ('E' :: '+' :: p.1, p.2))
        | 'E' :: '-' :: r => (readDigits r).map (fun p => ('E' :: '-' :: p.1, p.2))
        | 'E' :: r => (readDigits r).map (fun p => ('E' :: p.1, p.2))
        | r => some ([], r)
      match expo with
      | none => none
      | some (es, r3) => some (signed.1 ++ ds ++ fs ++ es, r3)

mutual
/-- Reads one JSON value; `fuel` bounds the nesting and the number of members. -/
def readValue : Nat → Str → Option (JSONValue × Str)
  | 0, _ => none
  | fuel + 1, s =>
    match skipSpace s with
    | '{' :: r =>
      match skipSpace r with
      | '}' :: r' => some (JSONValue.object [], r')
      | _ => (readMembers fuel r []).map (fun p => (JSONValue.object p.1, p.2))
    | '[' :: r =>
      match skipSpace r with
      | ']' :: r' => some (JSONValue.array [], r')
      | _ => (readItems fuel r []).map (fun p => (JSONValue.array p.1, p.2))
    | '"' :: r => (readString r).map (fun p => (JSONValue.string p.1, p.2))
    | 't' :: 'r' :: 'u' :: 'e' :: r => some (JSONValue.bool true, r)
    | 'f' :: 'a' :: 'l' :: 's' :: 'e' :: r => some (JSONValue.bool false, r)
    | 'n' :: 'u' :: 'l' :: 'l' :: r => some (JSONValue.null, r)
    | s' => (readNumber s').map (fun p => (JSONValue.number p.1, p.2))
/-- Reads the members of an object up to the closing brace.  A repeated key
replaces the earlier binding, as an assignment to a Go map does. -/
def readMembers : Nat → Str → List (Str × JSONValue) → Option (List (Str × JSONValue) × Str)
  | 0, _, _ => none
  | fuel + 1, s, acc =>
    match skipSpace s with
    | '"' :: r =>
      match readString r with
      | none => none
      | some (key, r1) =>
        match skipSpace r1 with
        | ':' :: r2 =>
          match readValue fuel r2 with
          | none => none
          | some (v, r3) =>
            match skipSpace r3 with
            | ',' :: r4 => readMembers fuel r4 (mapSet acc key v)
            | '}' :: r4 => some (mapSet acc key v, r4)
            | _ => none
        | _ => none
    | _ => none
/-- Reads the items of an array up to the closing bracket. -/
def readItems : Nat → Str → List JSONValue → Option (List JSONValue × Str)
  | 0, _, _ => none
  | fuel + 1, s, acc =>
    match readValue fuel s with
    | none => none
    | some (v, r1) =>
      match skipSpace r1 with
      | ',' :: r2 => readItems fuel r2 (acc ++ [v])
      | ']' :: r2 => some (acc ++ [v], r2)
      | _ => none
end

/-- The reference decoder: the whole text must be one JSON value; an object
gives its members in document order, `null` leaves the map nil, every other
value is a type error.  It stands in for `json.Unmarshal` on the bodies of the
examples only: escapes of the form `\uXXXX` are rejected, not decoded, and a
number literal is accepted whatever its magnitude. -/
def decodeJSON (s : Str) : UnmarshalResult :=
  match readValue (s.length + 1) s with
  | some (JSONValue.object members, rest) =>
    if skipSpace rest = [] then UnmarshalResult.object members else UnmarshalResult.error
  | some (JSONValue.null, rest) =>
    if skipSpace rest = [] then UnmarshalResult.nilMap else UnmarshalResult.error
  | _ => UnmarshalResult.error

/-- The reference runtime.  No timestamp parses and the time renderings are
empty. -/
def refRuntime : Runtime :=
  { rangeOrder := fun _ m => m,
    sortSlice := fun _ less l => l.insertionSort (fun a b => less b a = false),
    jsonUnmarshal := decodeJSON,
    timeParse := fun _ => none,
    formatClock := fun _ => [],
    formatMinutes := fun _ _ => [] }

/-- The reference runtime with maps ranged over in reverse insertion order. -/
def revRuntime : Runtime :=
  { refRuntime with rangeOrder := fun _ m => m.reverse }

/-! ## Sample inputs -/

/-- An entry with the given method, URL, status and response MIME type, and
nothing else. -/
def mkEntry (method url : String) (status : Int) (mime : String) : Entry :=
  { StartedDateTime := [],
    Request := { Method := method.toList, URL := url.toList, Headers := [], QueryString := [],
                 PostData := { Text := [] } },
    Response := { Status := status, Content := { MimeType := mime.toList } } }

/-- The entry `e` with its method, URL, status and response MIME type replaced;
the timestamp, headers, query string and body are those of `e`. -/
def setCall (e : Entry) (method url : String) (status : Int) (mime : String) : Entry :=
  { e with
    Request := { e.Request with Method := method.toList, URL := url.toList },
    Response := { Status := status, Content := { MimeType := mime.toList } } }

/-- Two `GET https://a.com/x` and one `POST https://a.com/y`. -/
def sampleEntries : List Entry :=
  [mkEntry "GET" "https://a.com/x" 200 "application/json",
   mkEntry "GET" "https://a.com/x" 200 "application/json",
   mkEntry "POST" "https://a.com/y" 201 "text/html"]

/-- The host record expected for the sample entries. -/
def sampleHostRecord : HostInfo :=
  { Host := "a.com".toList, RequestCount := 3, Methods := ["GET".toList, "POST".toList],
    Paths := ["/x".toList, "/y".toList] }

/-- Two entries with different (method, path) pairs and the same API key. -/
def collidingEntries : List Entry :=
  [mkEntry "GET" "http://h/a /b" 200 "", mkEntry "GET /a" "http://h/b" 200 ""]

/-- Two hosts and two APIs seen once each. -/
def tiedEntries : List Entry :=
  [mkEntry "GET" "http://a/x" 200 "", mkEntry "GET" "http://b/y" 200 ""]

/-! ## The report

The report is built in a `strings.Builder`.  The functions below return the
list of the strings handed to `WriteString`, in order; the content of the
builder is their concatenation. -/

/-- The marker written for a table without rows. -/
def noDataMarker : Str := "无数据\n\n".toList

/-- The header line of a frequency table, `fmt.Sprintf("| %s | %s |\n", ...)`. -/
def tableHeader (nameHeader countHeader : Str) : Str :=
  "| ".toList ++ nameHeader ++ " | ".toList ++ countHeader ++ " |\n".toList

/-- The rule under the header of a frequency table. -/
def tableRule : Str := "|------|------|\n".toList

/-- A data row of a frequency table, `fmt.Sprintf("| %s | %d |\n", name, count)`. -/
def dataRow (item : Str × Nat) : Str :=
  "| ".toList ++ item.1 ++ " | ".toList ++ fmtInt (Int.ofNat item.2) ++ " |\n".toList

/-- The row that stands for the items beyond the twentieth. -/
def ellipsisRow : Str := "| ... | ... |\n".toList

/-- The row stating the number of items, `fmt.Sprintf("| **总计**: %d项 | |\n", n)`. -/
def totalRow (n : Nat) : Str :=
  "| **总计**: ".toList ++ fmtInt (Int.ofNat n) ++ "项 | |\n".toList

/-- The comparison passed to `sort.Slice` in `writeTopItemsFiltered`. -/
def itemLess (a b : Str × Nat) : Bool := decide (a.2 > b.2)

/-- The constant `maxItems` of `writeTopItemsFiltered`. -/
def maxItems : Nat := 20

/-- The loop of `writeTopItemsFiltered` over the sorted items, from index `i`:
a data row per item, and at index `maxItems` the ellipsis row and the total row
followed by `break`. -/
def writeItemRows (total : Nat) : Nat → List (Str × Nat) → List Str
  | _, [] => []
  | i, item :: rest =>
    if i ≥ maxItems then [ellipsisRow, totalRow total]
    else dataRow item :: writeItemRows total (i + 1) rest

/-- The items of `items` whose count exceeds `minCount`, in the order in which
`range` yields them. -/
def selectItems (rt : Runtime) (items : List (Str × Nat)) (minCount : Int) : List (Str × Nat) :=
  (rt.rangeOrder Nat items).filter (fun p => decide ((p.2 : Int) > minCount))

/-- The slice `sortedItems` of `writeTopItemsFiltered` after `sort.Slice`. -/
def sortedItems (rt : Runtime) (items : List (Str × Nat)) (minCount : Int) : List (Str × Nat) :=
  rt.sortSlice (Str × Nat) itemLess (selectItems rt items minCount)

/-- The method `writeTopItemsFiltered`: the strings it writes to the report. -/
def writeTopItemsFiltered (rt : Runtime) (items : List (Str × Nat))
    (nameHeader countHeader : Str) (minCount : Int) : List Str :=
  if (sortedItems rt items minCount).length = 0 then [noDataMarker]
  else
    [tableHeader nameHeader countHeader, tableRule] ++
      writeItemRows (sortedItems rt items minCount).length 0 (sortedItems rt items minCount) ++
      ["\n".toList]

/-- The method `writeTopItems`. -/
def writeTopItems (rt : Runtime) (items : List (Str × Nat)) (nameHeader countHeader : Str) :
    List Str :=
  writeTopItemsFiltered rt items nameHeader countHeader 1

/-- The fields of `Metadata` that are not computed from the entries, with the
analysis time already rendered by `Format("2006-01-02 15:04:05")`. -/
structure ReportHeader where
  FileName : Str
  AnalysisTime : Str
  BrowserInfo : Str
  HARVersion : Str

/-- The field `CodeTemplates` of the result. -/
structure CodeTemplates where
  GoStructs : List Str
  Headers : List Str
  APIEndpoints : List Str

/-- The header line of the host table. -/
def hostTableHeader : Str := "| 主机 | 请求数 | HTTP方法 |\n".toList

/-- The rule under the header of the host table. -/
def hostTableRule : Str := "|------|--------|----------|\n".toList

/-- A row of the host table; the methods are joined by `strings.Join(.., ", ")`. -/
def hostRow (host : HostInfo) : Str :=
  "| ".toList ++ host.Host ++ " | ".toList ++ fmtInt (Int.ofNat host.RequestCount) ++
    " | ".toList ++ List.intercalate ", ".toList host.Methods ++ " |\n".toList

/-- The host section of `generateMarkdownReport`. -/
def hostSection (result : UniversalAnalysisResult) : List Str :=
  ["## 🌐 主机统计\n\n".toList, hostTableHeader, hostTableRule] ++
    result.Hosts.map hostRow ++ ["\n".toList]

/-- The header line of the API table. -/
def apiTableHeader : Str := "| 方法 | 路径 | 主机 | 调用次数 | 响应类型 |\n".toList

/-- The rule under the header of the API table. -/
def apiTableRule : Str := "|------|------|------|----------|----------|\n".toList

/-- A row of the API table. -/
def apiRow (api : APIInfo) : Str :=
  "| ".toList ++ api.Method ++ " | ".toList ++ api.Path ++ " | ".toList ++ api.Host ++
    " | ".toList ++ fmtInt (Int.ofNat api.CallCount) ++ " | ".toList ++ api.ResponseType ++
    " |\n".toList

/-- The API section of `generateMarkdownReport`: a row per API called more than
once. -/
def apiSection (result : UniversalAnalysisResult) : List Str :=
  ["## 🔗 热门API (调用次数 > 1)\n\n".toList, apiTableHeader, apiTableRule] ++
    (result.APIs.filter (fun api => decide (api.CallCount > 1))).map apiRow ++ ["\n".toList]

/-- The method `generateMarkdownReport`: the strings written to the report
before it is saved. -/
def generateMarkdownReport (rt : Runtime) (header : ReportHeader) (templates : CodeTemplates)
    (result : UniversalAnalysisResult) : List Str :=
  ["# HAR分析报告: ".toList ++ header.FileName ++ "\n\n".toList,
   "**分析时间**: ".toList ++ header.AnalysisTime ++ "\n\n".toList,
   "## 📊 基本信息\n\n".toList,
   "- **总请求数**: ".toList ++ fmtInt (Int.ofNat result.Metadata.TotalRequests) ++ "\n".toList,
   "- **唯一主机数**: ".toList ++ fmtInt (Int.ofNat result.Metadata.UniqueHosts) ++ "\n".toList,
   "- **时间跨度**: ".toList ++ result.Metadata.TimeSpan ++ "\n".toList,
   "- **浏览器**: ".toList ++ header.BrowserInfo ++ "\n".toList,
   "- **HAR版本**: ".toList ++ header.HARVersion ++ "\n\n".toList] ++
  hostSection result ++
  apiSection result ++
  ["## 📝 常用参数 (出现次数 > 1)\n\n".toList] ++
  writeTopItems rt result.ExtractedData.Parameters "参数名".toList "出现次数".toList ++
  ["## 📋 常用请求头 (出现次数 > 5)\n\n".toList] ++
  writeTopItemsFiltered rt result.ExtractedData.Headers "请求头".toList "出现次数".toList 5 ++
  ["## 🔧 HTTP方法统计\n\n".toList] ++
  writeTopItems rt result.ExtractedData.Methods "方法".toList "使用次数".toList ++
  ["## 📈 状态码统计\n\n".toList] ++
  writeTopItems rt result.ExtractedData.StatusCodes "状态码".toList "出现次数".toList ++
  ["## 📄 响应类型统计\n\n".toList] ++
  writeTopItems rt result.ExtractedData.ResponseTypes "类型".toList "出现次数".toList ++
  ["## 💻 代码模板\n\n".toList, "### Go结构体\n\n".toList] ++
  (templates.GoStructs.map (fun goStruct => ["```go\n".toList, goStruct, "\n```\n\n".toList])).flatten ++
  ["### 常用请求头设置\n\n".toList, "```go\n".toList] ++
  templates.Headers.map (fun h => h ++ "\n".toList) ++
  ["```\n\n".toList, "### API端点列表\n\n".toList, "```go\n".toList] ++
  templates.APIEndpoints.map (fun endpoint => endpoint ++ "\n".toList) ++
  ["```\n\n".toList]

/-- A frequency map with 25 keys `k1` .. `k25`, each counted twice. -/
def sample25 : List (Str × Nat) :=
  (List.range 25).map (fun i => ('k' :: Nat.toDigits 10 (i + 1), 2))

/-- The result of analysing a file without entries. -/
def emptyResult : UniversalAnalysisResult := AnalyzeHARFile refRuntime []

/-- The number of keys of a frequency map whose count exceeds `minCount`. -/
def qualifying (items : List (Str × Nat)) (minCount : Int) : Nat :=
  (items.filter (fun p => decide ((p.2 : Int) > minCount))).length

/-! ## A runtime with readable timestamps -/

/-- A stand-in for `time.Parse` on concrete inputs: a non-empty run of decimal
digits is read as the instant it denotes, every other text is an error. -/
def readStamp (s : Str) : Option Int :=
  if s ≠ [] ∧ s.all Char.isDigit then
    some (Int.ofNat (s.foldl (fun n c => 10 * n + (c.toNat - '0'.toNat)) 0))
  else none

/-- The reference runtime with `readStamp` for timestamps and decimal
renderings of instants and of their difference. -/
def stampRuntime : Runtime :=
  { refRuntime with
    timeParse := readStamp,
    formatClock := fmtInt,
    formatMinutes := fun startTime endTime => fmtInt (endTime - startTime) }

/-- An entry with the given timestamp text and nothing else of interest. -/
def mkStamped (stamp : String) : Entry :=
  { mkEntry "GET" "http://a/x" 200 "" with StartedDateTime := stamp.toList }

/-- An entry whose timestamp does not parse followed by one whose timestamp
parses as the instant 5. -/
def lateStartEntries : List Entry := [mkStamped "", mkStamped "5"]

/-- The instants parsed from the timestamps of the entries, in file order. -/
def parsedInstants (rt : Runtime) (entries : List Entry) : List Int :=
  entries.filterMap (fun e => rt.timeParse e.StartedDateTime)

/-! ## The groups of the two URL expressions -/

/-- The continuation of `[^/]+` in the path expression, the group `(/[^?#]*)`:
a `/` must follow, and the group takes it with the longest run free of `?` and
`#`. -/
def pathGroup (_run : Str) (rest : Str) : Option Str :=
  match rest with
  | '/' :: r => some ('/' :: r.takeWhile (fun c => decide (c ≠ '?') && decide (c ≠ '#')))
  | _ => none

/-- The text contains no occurrence of `http://` or `https://` followed by a
character other than `/`. -/
def NoURLInside (url : Str) : Prop :=
  ∀ c : Char, c ≠ '/' →
    ¬ ("http://".toList ++ [c]) <:+: url ∧ ¬ ("https://".toList ++ [c]) <:+: url

/-! ## The key paths of a JSON value -/

mutual
/-- The dotted paths of the object keys in the tree of a value reached under
the path `p`, as the specification describes them, in visiting order: a key
`k` of an object gives `k` when `p` is empty and `p.k` otherwise, followed by
the paths of its value under that path; the `i`-th item of an array gives the
paths of the item under `p[i]` and no path of its own; strings, numbers,
booleans and `null` give nothing. -/
def jsonPaths : JSONValue → Str → List Str
  | JSONValue.object members, p => jsonMemberPaths members p
  | JSONValue.array items, p => jsonItemPaths items p 0
  | _, _ => []
/-- The paths contributed by the members of an object reached under `p`. -/
def jsonMemberPaths : List (Str × JSONValue) → Str → List Str
  | [], _ => []
  | (k, v) :: rest, p =>
    (if p ≠ [] then p ++ '.' :: k else k) ::
      (jsonPaths v (if p ≠ [] then p ++ '.' :: k else k) ++ jsonMemberPaths rest p)
/-- The paths contributed by the items of an array reached under `p`, from
index `i`. -/
def jsonItemPaths : List JSONValue → Str → Nat → List Str
  | [], _, _ => []
  | item :: rest, p, i =>
    jsonPaths item (p ++ '[' :: fmtInt (Int.ofNat i) ++ [']']) ++ jsonItemPaths rest p (i + 1)
end

/-- One `GET http://h/x` whose query string names `a` twice, with the values
`1` and `2`. -/
def dupQueryEntries : List Entry :=
  [{ mkEntry "GET" "http://h/x?a=1&a=2" 200 "" with
     Request := { Method := "GET".toList, URL := "http://h/x?a=1&a=2".toList, Headers := [],
                  QueryString := [{ Name := "a".toList, Value := "1".toList },
                                  { Name := "a".toList, Value := "2".toList }],
                  PostData := { Text := [] } } }]

/-! ## Further sample inputs -/

/-- Three entries: a relative URL, which has no host, and two calls of
different methods on one host. -/
def mixedEntries : List Entry :=
  [mkEntry "GET" "/relative/path" 200 "", mkEntry "GET" "http://a/x" 200 "",
   mkEntry "POST" "http://a/x" 201 ""]

/-- Two `GET http://h/x`.  The first carries the header `Cookie` twice, with
the values `c1` and `c2`, and a `Pragma` header; the second carries an
`Authorization` header and another status. -/
def dupHeaderEntries : List Entry :=
  [{ mkEntry "GET" "http://h/x" 200 "" with
     Request := { Method := "GET".toList, URL := "http://h/x".toList,
                  Headers := [{ Name := "Cookie".toList, Value := "c1".toList },
                              { Name := "Pragma".toList, Value := "no-cache".toList },
                              { Name := "Cookie".toList, Value := "c2".toList }],
                  QueryString := [], PostData := { Text := [] } } },
   { mkEntry "GET" "http://h/x" 404 "text/html" with
     Request := { Method := "GET".toList, URL := "http://h/x".toList,
                  Headers := [{ Name := "Authorization".toList, Value := "t".toList }],
                  QueryString := [], PostData := { Text := [] } } }]

/-! ## Lemmas on maps -/

theorem mapGet_mapSet_self {β : Type} (m : List (Str × β)) (k : Str) (v : β) :
    mapGet (mapSet m k v) k = some v := by
  induction m with
  | nil => simp [mapSet, mapGet]
  | cons p rest ih =>
    obtain ⟨k', v'⟩ := p
    by_cases h : k' = k
    · simp [mapSet, mapGet, h]
    · simp [mapSet, mapGet, h, ih]

theorem mapGet_mapSet_ne {β : Type} (m : List (Str × β)) (k k' : Str) (v : β) (h : k ≠ k') :
    mapGet (mapSet m k v) k' = mapGet m k' := by
  induction m with
  | nil => simp [mapSet, mapGet, h]
  | cons p rest ih =>
    obtain ⟨k0, v0⟩ := p
    by_cases h0 : k0 = k
    · subst h0; simp [mapSet, mapGet, h]
    · by_cases h1 : k0 = k'
      · subst h1; simp [mapSet, mapGet, h0]
      · simp [mapSet, mapGet, h0, h1, ih]

theorem mapGet_eq_none_iff {β : Type} (m : List (Str × β)) (k : Str) :
    mapGet m k = none ↔ k ∉ m.map Prod.fst := by
  induction m with
  | nil => simp [mapGet]
  | cons p rest ih =>
    obtain ⟨k0, v0⟩ := p
    by_cases h0 : k0 = k
    · subst h0
      simp only [mapGet, if_true, List.map_cons, List.mem_cons, true_or, not_true_eq_false]
      simp
    · have h0' : ¬ k = k0 := fun e => h0 e.symm
      simp only [mapGet, h0, if_false, ih, List.map_cons, List.mem_cons, h0', false_or]

theorem mapGet_mem {β : Type} (m : List (Str × β)) (k : Str) (v : β) (h : mapGet m k = some v) :
    (k, v) ∈ m := by
  induction m with
  | nil => simp [mapGet] at h
  | cons p rest ih =>
    obtain ⟨k0, v0⟩ := p
    by_cases h0 : k0 = k
    · simp [mapGet, h0] at h; simp [h0, h]
    · simp [mapGet, h0] at h; exact List.mem_cons_of_mem _ (ih h)

theorem mem_mapGet {β : Type} (m : List (Str × β)) (hnd : (m.map Prod.fst).Nodup) (k : Str) (v : β)
    (h : (k, v) ∈ m) : mapGet m k = some v := by
  induction m with
  | nil => simp at h
  | cons p rest ih =>
    obtain ⟨k0, v0⟩ := p
    simp only [List.map_cons, List.nodup_cons] at hnd
    rcases List.mem_cons.1 h with h1 | h1
    · cases h1; simp [mapGet]
    · have hk : k ∈ rest.map Prod.fst := List.mem_map.2 ⟨(k, v), h1, rfl⟩
      have h0 : k0 ≠ k := fun e => hnd.1 (e ▸ hk)
      simp [mapGet, h0, ih hnd.2 h1]

theorem keys_mapSet {β : Type} (m : List (Str × β)) (k : Str) (v : β) :
    (mapSet m k v).map Prod.fst = addUniqueString (m.map Prod.fst) k := by
  induction m with
  | nil => simp [mapSet, addUniqueString]
  | cons p rest ih =>
    obtain ⟨k0, v0⟩ := p
    by_cases h0 : k0 = k
    · subst h0
      simp only [mapSet, if_true, List.map_cons, addUniqueString, List.mem_cons, true_or]
    · have h0' : ¬ k = k0 := fun e => h0 e.symm
      simp only [mapSet, h0, if_false, List.map_cons, ih, addUniqueString, List.mem_cons, h0',
        false_or]
      split <;> simp

theorem mapSum_mapSet (m : List (Str × Nat)) (k : Str) (v : Nat) :
    mapSum (mapSet m k v) + mapCount m k = mapSum m + v := by
  induction m with
  | nil => simp [mapSet, mapSum, mapCount, mapGet]
  | cons p rest ih =>
    obtain ⟨k0, v0⟩ := p
    by_cases h0 : k0 = k
    · simp [mapSet, mapSum, mapCount, mapGet, h0]; omega
    · simp only [mapSum, mapCount] at ih
      simp [mapSet, mapSum, mapCount, mapGet, h0]; omega

theorem mapSum_mapIncr (m : List (Str × Nat)) (k : Str) : mapSum (mapIncr m k) = mapSum m + 1 := by
  have h := mapSum_mapSet m k ((mapGet m k).getD 0 + 1)
  simp only [mapIncr, mapCount] at *
  omega

/-! ## The loop as three independent folds -/

theorem loop_hostMap (rt : Runtime) (es : List Entry) (i : Nat) (st : AggState) :
    (loop rt i es st).hostMap = es.foldl hostStep st.hostMap := by
  induction es generalizing i st with
  | nil => rfl
  | cons e rest ih => simp [loop, ih, step]

theorem loop_apiMap (rt : Runtime) (es : List Entry) (i : Nat) (st : AggState) :
    (loop rt i es st).apiMap = es.foldl apiStep st.apiMap := by
  induction es generalizing i st with
  | nil => rfl
  | cons e rest ih => simp [loop, ih, step]

theorem loop_data (rt : Runtime) (es : List Entry) (i : Nat) (st : AggState) :
    (loop rt i es st).data = es.foldl (dataStep rt) st.data := by
  induction es generalizing i st with
  | nil => rfl
  | cons e rest ih => simp [loop, ih, step]

theorem foldl_dataStep_methods (rt : Runtime) (es : List Entry) (d : ExtractedData) :
    mapSum (es.foldl (dataStep rt) d).Methods = mapSum d.Methods + es.length := by
  induction es generalizing d with
  | nil => simp
  | cons e rest ih =>
    simp only [List.foldl_cons, ih, List.length_cons]
    simp only [dataStep, mapSum_mapIncr]
    omega

/-! ## Keyed accumulation

The host block and the API block of the loop have the same shape: the record
bound to a key is created from the entry when the key is new, then updated. -/

theorem foldl_upsert_keys {ε β : Type} (key : ε → Str) (d : ε → β) (f : ε → β → β)
    (es : List ε) (m0 : List (Str × β)) :
    (es.foldl (fun m e => mapSet m (key e) (f e ((mapGet m (key e)).getD (d e)))) m0).map Prod.fst
      = (es.map key).foldl addUniqueString (m0.map Prod.fst) := by
  induction es generalizing m0 with
  | nil => rfl
  | cons e rest ih => simp only [List.foldl_cons, List.map_cons, ih, keys_mapSet]

theorem foldl_upsert_get {ε β : Type} (key : ε → Str) (d : ε → β) (f : ε → β → β)
    (es : List ε) (m0 : List (Str × β)) (k : Str) :
    mapGet (es.foldl (fun m e => mapSet m (key e) (f e ((mapGet m (key e)).getD (d e)))) m0) k
      = ((mapGet m0 k).orElse (fun _ => ((es.filter (fun e => key e = k)).head?).map d)).map
          (fun r0 => (es.filter (fun e => key e = k)).foldl (fun r e => f e r) r0) := by
  induction es generalizing m0 with
  | nil => cases h : mapGet m0 k <;> simp [h]
  | cons e rest ih =>
    simp only [List.foldl_cons, ih]
    by_cases hk : key e = k
    · subst hk
      simp only [mapGet_mapSet_self, List.filter_cons, decide_True, if_true, List.head?_cons,
        Option.map_some', List.foldl_cons]
      cases h : mapGet m0 (key e) <;> simp [h]
    · simp only [mapGet_mapSet_ne _ _ _ _ hk, List.filter_cons, hk, decide_False]
      simp

theorem mem_foldl_addUniqueString (ks : List Str) (init : List Str) (x : Str) :
    x ∈ ks.foldl addUniqueString init ↔ x ∈ init ∨ x ∈ ks := by
  induction ks generalizing init with
  | nil => simp
  | cons k rest ih =>
    simp only [List.foldl_cons, ih, List.mem_cons, addUniqueString]
    by_cases hk : k ∈ init
    · simp only [hk, if_true]
      constructor
      · rintro (h | h)
        · exact Or.inl h
        · exact Or.inr (Or.inr h)
      · rintro (h | h | h)
        · exact Or.inl h
        · exact Or.inl (h ▸ hk)
        · exact Or.inr h
    · simp only [hk, if_false, List.mem_append, List.mem_singleton]
      tauto

theorem nodup_foldl_addUniqueString (ks : List Str) (init : List Str) (h : init.Nodup) :
    (ks.foldl addUniqueString init).Nodup := by
  induction ks generalizing init with
  | nil => exact h
  | cons k rest ih =>
    simp only [List.foldl_cons]
    apply ih
    unfold addUniqueString
    split
    · exact h
    · rename_i hk
      exact List.Nodup.append h (List.nodup_singleton k) (by
        intro a ha hb
        rw [List.mem_singleton] at hb
        exact hk (hb ▸ ha))

/-! ## The API map after the pass -/

theorem foldl_bumpCallCount (l : List Entry) (r0 : APIInfo) :
    l.foldl (fun r _ => bumpCallCount r) r0 = { r0 with CallCount := r0.CallCount + l.length } := by
  induction l generalizing r0 with
  | nil => rfl
  | cons e rest ih =>
    simp only [List.foldl_cons, List.length_cons]
    rw [ih]
    simp only [bumpCallCount]
    rw [Nat.add_assoc, Nat.add_comm 1]

theorem apiMap_keys (es : List Entry) (m0 : List (Str × APIInfo)) :
    (es.foldl apiStep m0).map Prod.fst = (es.map apiKey).foldl addUniqueString (m0.map Prod.fst) :=
  foldl_upsert_keys apiKey newAPIInfo (fun _ => bumpCallCount) es m0

/-- The record bound to a key after the pass: the one created from the first
entry with that key, with the number of such entries as call count. -/
theorem apiMap_get (es : List Entry) (k : Str) :
    mapGet (es.foldl apiStep []) k =
      (es.find? (fun e => apiKey e = k)).map
        (fun e0 => { newAPIInfo e0 with CallCount := es.countP (fun e => apiKey e = k) }) := by
  have h := foldl_upsert_get apiKey newAPIInfo (fun _ => bumpCallCount) es [] k
  have h' : mapGet (es.foldl apiStep []) k = _ := h
  rw [h']
  simp only [mapGet, Option.orElse, foldl_bumpCallCount, List.countP_eq_length_filter,
    List.filter_head?, Option.map_map]
  cases es.find? (fun e => decide (apiKey e = k)) with
  | none => rfl
  | some e0 => simp [newAPIInfo]

theorem apiMap_nodup (es : List Entry) : ((es.foldl apiStep []).map Prod.fst).Nodup := by
  rw [apiMap_keys]
  exact nodup_foldl_addUniqueString _ _ List.nodup_nil

theorem apiMap_mem_key (es : List Entry) (k : Str) :
    k ∈ (es.foldl apiStep []).map Prod.fst ↔ ∃ e ∈ es, apiKey e = k := by
  rw [apiMap_keys, mem_foldl_addUniqueString]
  simp only [List.map_nil, List.not_mem_nil, false_or, List.mem_map]

/-- Every binding of the API map comes from the first entry with its key. -/
theorem apiMap_binding (es : List Entry) (k : Str) (r : APIInfo)
    (h : (k, r) ∈ es.foldl apiStep []) :
    ∃ e0, es.find? (fun e => apiKey e = k) = some e0 ∧ e0 ∈ es ∧ apiKey e0 = k ∧
      r = { newAPIInfo e0 with CallCount := es.countP (fun e => apiKey e = k) } := by
  have hg := mem_mapGet _ (apiMap_nodup es) k r h
  rw [apiMap_get] at hg
  cases hf : es.find? (fun e => apiKey e = k) with
  | none => rw [hf] at hg; cases hg
  | some e0 =>
    rw [hf] at hg
    refine ⟨e0, rfl, List.mem_of_find?_eq_some hf, ?_, ?_⟩
    · simpa using List.find?_some hf
    · simpa using hg.symm

theorem apiKey_inj (m1 m2 p1 p2 : Str) (h1 : ' ' ∉ m1) (h2 : ' ' ∉ m2)
    (h : m1 ++ ' ' :: p1 = m2 ++ ' ' :: p2) : m1 = m2 ∧ p1 = p2 := by
  induction m1 generalizing m2 with
  | nil =>
    cases m2 with
    | nil => simpa using h
    | cons c m2' =>
      simp only [List.nil_append, List.cons_append, List.cons.injEq] at h
      exact absurd (h.1 ▸ List.mem_cons_self _ _) h2
  | cons c m1' ih =>
    cases m2 with
    | nil =>
      simp only [List.nil_append, List.cons_append, List.cons.injEq] at h
      exact absurd (h.1 ▸ List.mem_cons_self _ _) h1
    | cons c' m2' =>
      simp only [List.cons_append, List.cons.injEq] at h
      have := ih m2' (fun hc => h1 (List.mem_cons_of_mem _ hc))
        (fun hc => h2 (List.mem_cons_of_mem _ hc)) h.2
      exact ⟨by rw [h.1, this.1], this.2⟩

/-! ## The host map after the pass -/

theorem foldl_hostStep (es : List Entry) (m0 : List (Str × HostInfo)) :
    es.foldl hostStep m0 =
      (es.filter (fun e => extractHost e.Request.URL ≠ [])).foldl
        (fun m e => mapSet m (extractHost e.Request.URL)
          (hostUpdate e ((mapGet m (extractHost e.Request.URL)).getD
            (newHostInfo (extractHost e.Request.URL))))) m0 := by
  induction es generalizing m0 with
  | nil => rfl
  | cons e rest ih =>
    by_cases he : extractHost e.Request.URL = []
    · simp only [List.foldl_cons, List.filter_cons, he, ne_eq, not_true_eq_false, decide_False,
        ih, hostStep, if_false]
      simp
    · simp only [List.foldl_cons, List.filter_cons, he, ne_eq, not_false_eq_true, decide_True,
        ih, hostStep, if_true]

theorem hostMap_keys (es : List Entry) :
    (es.foldl hostStep []).map Prod.fst =
      ((es.map (fun e => extractHost e.Request.URL)).filter (fun h => h ≠ [])).foldl
        addUniqueString [] := by
  rw [foldl_hostStep, foldl_upsert_keys (fun e => extractHost e.Request.URL)
    (fun e => newHostInfo (extractHost e.Request.URL)) hostUpdate]
  simp only [List.map_nil, List.filter_map]
  rfl

theorem hostMap_nodup (es : List Entry) : ((es.foldl hostStep []).map Prod.fst).Nodup := by
  rw [hostMap_keys]
  exact nodup_foldl_addUniqueString _ _ List.nodup_nil

theorem hostMap_mem_key (es : List Entry) (h : Str) :
    h ∈ (es.foldl hostStep []).map Prod.fst ↔
      h ≠ [] ∧ ∃ e ∈ es, extractHost e.Request.URL = h := by
  rw [hostMap_keys, mem_foldl_addUniqueString]
  simp only [List.not_mem_nil, false_or, List.mem_filter, List.mem_map, ne_eq,
    decide_eq_true_eq, decide_not, Bool.not_eq_true', decide_eq_false_iff_not]
  tauto

theorem foldl_hostUpdate_host (l : List Entry) (r0 : HostInfo) :
    (l.foldl (fun r e => hostUpdate e r) r0).Host = r0.Host ∧
    (l.foldl (fun r e => hostUpdate e r) r0).RequestCount = r0.RequestCount + l.length := by
  induction l generalizing r0 with
  | nil => exact ⟨rfl, rfl⟩
  | cons e rest ih =>
    simp only [List.foldl_cons, List.length_cons]
    refine ⟨(ih _).1, ?_⟩
    rw [(ih _).2]
    simp only [hostUpdate]
    omega

/-- The record bound to a non-empty host after the pass. -/
theorem hostMap_get (es : List Entry) (h : Str) :
    mapGet (es.foldl hostStep []) h =
      (((es.filter (fun e => extractHost e.Request.URL ≠ [])).filter
          (fun e => extractHost e.Request.URL = h)).head?).map
        (fun _ => ((es.filter (fun e => extractHost e.Request.URL ≠ [])).filter
          (fun e => extractHost e.Request.URL = h)).foldl (fun r e => hostUpdate e r)
            (newHostInfo h)) := by
  rw [foldl_hostStep, foldl_upsert_get (fun e => extractHost e.Request.URL)
    (fun e => newHostInfo (extractHost e.Request.URL)) hostUpdate]
  simp only [mapGet, Option.orElse]
  generalize hl : List.filter (fun e => decide (extractHost e.Request.URL = h))
    (List.filter (fun e => decide (extractHost e.Request.URL ≠ [])) es) = l
  cases l with
  | nil => rfl
  | cons e0 l' =>
    have he0 : e0 ∈ List.filter (fun e => decide (extractHost e.Request.URL = h))
        (List.filter (fun e => decide (extractHost e.Request.URL ≠ [])) es) := by
      rw [hl]; exact List.mem_cons_self _ _
    have := (List.mem_filter.1 he0).2
    simp only [decide_eq_true_eq] at this
    simp [this]

/-- Every binding of the host map carries its key as `Host`, and its request
count is the number of entries with that host. -/
theorem hostMap_binding (es : List Entry) (k : Str) (r : HostInfo)
    (h : (k, r) ∈ es.foldl hostStep []) :
    r.Host = k ∧ r.RequestCount = es.countP (fun e => extractHost e.Request.URL = k) := by
  have hg := mem_mapGet _ (hostMap_nodup es) k r h
  have hk : k ≠ [] := ((hostMap_mem_key es k).1 (List.mem_map.2 ⟨(k, r), h, rfl⟩)).1
  rw [hostMap_get] at hg
  have hf : (es.filter (fun e => extractHost e.Request.URL ≠ [])).filter
      (fun e => extractHost e.Request.URL = k) = es.filter (fun e => extractHost e.Request.URL = k) := by
    rw [List.filter_filter]
    apply List.filter_congr
    intro e _
    by_cases hek : extractHost e.Request.URL = k
    · simp [hek, hk]
    · simp [hek]
  rw [hf] at hg
  cases hh : (es.filter (fun e => extractHost e.Request.URL = k)).head? with
  | none => rw [hh] at hg; cases hg
  | some e0 =>
    rw [hh] at hg
    simp only [Option.map_some', Option.some.injEq] at hg
    rw [← hg]
    have := foldl_hostUpdate_host (es.filter (fun e => extractHost e.Request.URL = k)) (newHostInfo k)
    refine ⟨this.1, ?_⟩
    rw [this.2, List.countP_eq_length_filter]
    simp [newHostInfo]

/-! ## The runtime contracts hold for the reference runtimes -/

theorem insertionSort_sortOK {α : Type} (less : α → α → Bool) (l : List α) :
    (l.insertionSort (fun a b => less b a = false)).Perm l ∧
    (LessOK less →
      (l.insertionSort (fun a b => less b a = false)).Pairwise (fun a b => less b a = false)) := by
  refine ⟨List.perm_insertionSort _ l, fun h => ?_⟩
  haveI : IsTotal α (fun a b => less b a = false) := ⟨fun a b => by
    cases hba : less b a
    · exact Or.inl rfl
    · cases hab : less a b
      · exact Or.inr rfl
      · have := h.2.1 a b a hab hba
        rw [h.1] at this
        cases this⟩
  haveI : IsTrans α (fun a b => less b a = false) := ⟨fun a b c hab hbc => h.2.2 c b a hbc hab⟩
  exact List.sorted_insertionSort _ l

theorem insertionSort_stable {α : Type} (less : α → α → Bool) (l : List α) (x : α)
    (h : LessOK less) :
    (l.insertionSort (fun a b => less b a = false)).filter (fun y => !less x y && !less y x) =
      l.filter (fun y => !less x y && !less y x) := by
  have hpw : (l.filter (fun y => !less x y && !less y x)).Pairwise (fun a b => less b a = false) := by
    apply List.pairwise_of_forall_mem_list
    intro a ha b hb
    have ha' := (List.mem_filter.1 ha).2
    have hb' := (List.mem_filter.1 hb).2
    simp only [Bool.and_eq_true, Bool.not_eq_true'] at ha' hb'
    exact h.2.2 b x a hb'.2 ha'.1
  have hsub := List.sublist_insertionSort hpw (List.filter_sublist l)
  have hsub' := hsub.filter (fun y => !less x y && !less y x)
  rw [List.filter_filter] at hsub'
  simp only [Bool.and_self] at hsub'
  have hlen := ((List.perm_insertionSort (fun a b => less b a = false) l).filter
    (fun y => !less x y && !less y x)).length_eq
  exact (hsub'.eq_of_length hlen.symm).symm

theorem refRuntime_rangeOK : refRuntime.RangeOK := fun _ m => List.Perm.refl m

theorem refRuntime_sortOK : refRuntime.SortOK := fun _ less l => insertionSort_sortOK less l

theorem refRuntime_sortStable : refRuntime.SortStable :=
  fun _ less l x h => insertionSort_stable less l x h

theorem revRuntime_rangeOK : revRuntime.RangeOK := fun _ m => List.reverse_perm m

theorem revRuntime_sortOK : revRuntime.SortOK := fun _ less l => insertionSort_sortOK less l

theorem hostLess_ok : LessOK hostLess := by
  refine ⟨fun a => by simp [hostLess], fun a b c => ?_, fun a b c => ?_⟩ <;>
    simp only [hostLess, decide_eq_true_eq, decide_eq_false_iff_not] <;> omega

theorem apiLess_ok : LessOK apiLess := by
  refine ⟨fun a => by simp [apiLess], fun a b c => ?_, fun a b c => ?_⟩ <;>
    simp only [apiLess, decide_eq_true_eq, decide_eq_false_iff_not] <;> omega

/-! ## The two result lists -/

theorem hosts_perm (rt : Runtime) (hr : rt.RangeOK) (hs : rt.SortOK) (entries : List Entry) :
    (AnalyzeHARFile rt entries).Hosts.Perm ((entries.foldl hostStep []).map Prod.snd) := by
  have h1 := (hs HostInfo hostLess ((rt.rangeOrder HostInfo (aggregate rt entries).hostMap).map
    Prod.snd)).1
  have h2 := (hr HostInfo (aggregate rt entries).hostMap).map Prod.snd
  have h3 : (aggregate rt entries).hostMap = entries.foldl hostStep [] := by
    simp only [aggregate, loop_hostMap, initState]
  rw [h3] at h1 h2
  exact List.Perm.trans (by simpa only [AnalyzeHARFile, h3] using h1) h2

theorem apis_perm (rt : Runtime) (hr : rt.RangeOK) (hs : rt.SortOK) (entries : List Entry) :
    (AnalyzeHARFile rt entries).APIs.Perm ((entries.foldl apiStep []).map Prod.snd) := by
  have h1 := (hs APIInfo apiLess ((rt.rangeOrder APIInfo (aggregate rt entries).apiMap).map
    Prod.snd)).1
  have h2 := (hr APIInfo (aggregate rt entries).apiMap).map Prod.snd
  have h3 : (aggregate rt entries).apiMap = entries.foldl apiStep [] := by
    simp only [aggregate, loop_apiMap, initState]
  rw [h3] at h1 h2
  exact List.Perm.trans (by simpa only [AnalyzeHARFile, h3] using h1) h2

theorem hostMap_hosts (es : List Entry) :
    ((es.foldl hostStep []).map Prod.snd).map (fun r => r.Host) =
      (es.foldl hostStep []).map Prod.fst := by
  rw [List.map_map]
  apply List.map_congr_left
  intro p hp
  exact (hostMap_binding es p.1 p.2 hp).1

theorem apiMap_keys_of_records (es : List Entry) :
    ((es.foldl apiStep []).map Prod.snd).map (fun r => r.Method ++ ' ' :: r.Path) =
      (es.foldl apiStep []).map Prod.fst := by
  rw [List.map_map]
  apply List.map_congr_left
  intro p hp
  obtain ⟨e0, _, _, hk, hr⟩ := apiMap_binding es p.1 p.2 hp
  simp only [Function.comp, hr, newAPIInfo]
  exact hk

/-- When no method contains a space, the API list holds exactly one record per
distinct (method, path) pair, with the number of entries of the pair as call
count. -/
theorem api_records_of_spacefree_methods (rt : Runtime) (hr : rt.RangeOK) (hs : rt.SortOK)
    (entries : List Entry) (hm : ∀ e ∈ entries, ' ' ∉ e.Request.Method) :
    ((AnalyzeHARFile rt entries).APIs.map (fun r => (r.Method, r.Path))).Nodup ∧
    (∀ m p : Str, (m, p) ∈ (AnalyzeHARFile rt entries).APIs.map (fun r => (r.Method, r.Path)) ↔
      ∃ e ∈ entries, e.Request.Method = m ∧ extractPath e.Request.URL = p) ∧
    (∀ r ∈ (AnalyzeHARFile rt entries).APIs,
      r.CallCount = entries.countP
        (fun e => e.Request.Method = r.Method ∧ extractPath e.Request.URL = r.Path) ∧
      1 ≤ r.CallCount) := by
  have hp := apis_perm rt hr hs entries
  have hinj : ∀ e ∈ entries, ∀ e' ∈ entries, apiKey e = apiKey e' →
      e.Request.Method = e'.Request.Method ∧
        extractPath e.Request.URL = extractPath e'.Request.URL :=
    fun e he e' he' h => apiKey_inj _ _ _ _ (hm e he) (hm e' he') h
  refine ⟨?_, ?_, ?_⟩
  · rw [(hp.map _).nodup_iff]
    have hnd := apiMap_nodup entries
    rw [← apiMap_keys_of_records] at hnd
    have hcomp : ((entries.foldl apiStep []).map Prod.snd).map (fun r => r.Method ++ ' ' :: r.Path)
        = (((entries.foldl apiStep []).map Prod.snd).map (fun r => (r.Method, r.Path))).map
            (fun q : Str × Str => q.1 ++ ' ' :: q.2) := by
      simp only [List.map_map]
      rfl
    rw [hcomp] at hnd
    exact List.Nodup.of_map _ hnd
  · intro m p
    rw [(hp.map _).mem_iff]
    constructor
    · intro h
      obtain ⟨r, hr', hrp⟩ := List.mem_map.1 h
      obtain ⟨q, hq, hqr⟩ := List.mem_map.1 hr'
      obtain ⟨e0, _, he0, _, hrec⟩ := apiMap_binding entries q.1 q.2 hq
      refine ⟨e0, he0, ?_, ?_⟩
      · have : r.Method = m := congrArg Prod.fst hrp
        rw [← this, ← hqr, hrec]; rfl
      · have : r.Path = p := congrArg Prod.snd hrp
        rw [← this, ← hqr, hrec]; rfl
    · rintro ⟨e, he, hem, hep⟩
      have hk : apiKey e ∈ (entries.foldl apiStep []).map Prod.fst :=
        (apiMap_mem_key entries (apiKey e)).2 ⟨e, he, rfl⟩
      obtain ⟨q, hq, hqk⟩ := List.mem_map.1 hk
      obtain ⟨e0, _, he0, hk0, hrec⟩ := apiMap_binding entries q.1 q.2 hq
      have := hinj e0 he0 e he (hk0.trans hqk)
      refine List.mem_map.2 ⟨q.2, List.mem_map.2 ⟨q, hq, rfl⟩, ?_⟩
      rw [hrec]
      simp only [newAPIInfo, this.1, this.2, hem, hep]
  · intro r hr'
    obtain ⟨q, hq, hqr⟩ := List.mem_map.1 (hp.mem_iff.1 hr')
    obtain ⟨e0, _, he0, hk0, hrec⟩ := apiMap_binding entries q.1 q.2 hq
    have hcount : entries.countP (fun e => apiKey e = q.1) = entries.countP
        (fun e => e.Request.Method = r.Method ∧ extractPath e.Request.URL = r.Path) := by
      apply List.countP_congr
      intro e he
      simp only [decide_eq_true_eq]
      rw [← hqr, hrec]
      simp only [newAPIInfo]
      constructor
      · intro h
        exact hinj e he e0 he0 (h.trans hk0.symm)
      · rintro ⟨h1, h2⟩
        rw [← hk0]
        simp only [apiKey, h1, h2]
    have hcc : r.CallCount = entries.countP (fun e => apiKey e = q.1) := by
      rw [← hqr, hrec]
    refine ⟨hcc.trans hcount, ?_⟩
    rw [hcc]
    exact List.countP_pos_iff.2 ⟨e0, he0, by simpa using hk0⟩

/-! ## First-seen order of the map keys -/

theorem foldl_addUniqueString_snoc (l : List Str) (k : Str) :
    (l ++ [k]).foldl addUniqueString [] = addUniqueString (l.foldl addUniqueString []) k := by
  simp only [List.foldl_append, List.foldl_cons, List.foldl_nil]

theorem firstIndex_append_of_mem (x : Str) (l l' : List Str) (h : x ∈ l) :
    firstIndex x (l ++ l') = firstIndex x l := by
  induction l with
  | nil => cases h
  | cons k ks ih =>
    by_cases hk : k = x
    · simp [firstIndex, hk]
    · have hx : x ∈ ks := by
        rcases List.mem_cons.1 h with h' | h'
        · exact absurd h'.symm hk
        · exact h'
      simp [firstIndex, hk, ih hx]

theorem firstIndex_append_of_not_mem (x : Str) (l l' : List Str) (h : x ∉ l) :
    firstIndex x (l ++ l') = l.length + firstIndex x l' := by
  induction l with
  | nil => simp
  | cons k ks ih =>
    have hk : k ≠ x := fun e => h (e ▸ List.mem_cons_self _ _)
    have hx : x ∉ ks := fun e => h (List.mem_cons_of_mem _ e)
    have hstep : firstIndex x (k :: (ks ++ l')) = firstIndex x (ks ++ l') + 1 := by
      simp only [firstIndex, hk, if_false]
    rw [List.cons_append, hstep, ih hx, List.length_cons]
    omega

theorem firstIndex_lt_length (x : Str) (l : List Str) (h : x ∈ l) : firstIndex x l < l.length := by
  induction l with
  | nil => cases h
  | cons k ks ih =>
    by_cases hk : k = x
    · simp [firstIndex, hk]
    · have hx : x ∈ ks := by
        rcases List.mem_cons.1 h with h' | h'
        · exact absurd h'.symm hk
        · exact h'
      simp only [firstIndex, hk, if_false, List.length_cons]
      have := ih hx
      omega

/-- The keys collected by `addUniqueString` from the elements of `ks` that
satisfy `p` are listed by increasing position of their first occurrence in
`ks`. -/
theorem pairwise_firstIndex_foldl_addUniqueString (p : Str → Bool) (ks : List Str) :
    ((ks.filter p).foldl addUniqueString []).Pairwise
      (fun a b => firstIndex a ks < firstIndex b ks) := by
  induction ks using List.reverseRecOn with
  | nil => simp
  | append_singleton ks' k ih =>
    have hmem : ∀ a ∈ (ks'.filter p).foldl addUniqueString [], a ∈ ks' := by
      intro a ha
      rcases (mem_foldl_addUniqueString _ _ a).1 ha with h | h
      · cases h
      · exact (List.mem_filter.1 h).1
    have hold : ((ks'.filter p).foldl addUniqueString []).Pairwise
        (fun a b => firstIndex a (ks' ++ [k]) < firstIndex b (ks' ++ [k])) := by
      refine ih.imp_of_mem ?_
      intro a b ha hb hab
      rw [firstIndex_append_of_mem a _ _ (hmem a ha), firstIndex_append_of_mem b _ _ (hmem b hb)]
      exact hab
    rw [List.filter_append]
    by_cases hpk : p k = true
    · have hf : List.filter p [k] = [k] := by simp [hpk]
      rw [hf, foldl_addUniqueString_snoc]
      unfold addUniqueString
      split
      · exact hold
      · rename_i hk
        have hk' : k ∉ ks' := by
          intro hin
          exact hk ((mem_foldl_addUniqueString _ _ k).2 (Or.inr (List.mem_filter.2 ⟨hin, hpk⟩)))
        rw [List.pairwise_append]
        refine ⟨hold, List.pairwise_singleton _ _, ?_⟩
        intro a ha b hb
        rw [List.mem_singleton] at hb
        subst hb
        rw [firstIndex_append_of_mem a _ _ (hmem a ha), firstIndex_append_of_not_mem b _ _ hk']
        have := firstIndex_lt_length a ks' (hmem a ha)
        omega
    · have hf : List.filter p [k] = [] := by simp [hpk]
      rw [hf, List.append_nil]
      exact hold

theorem hostMap_first_seen (es : List Entry) :
    ((es.foldl hostStep []).map Prod.snd).Pairwise
      (fun a b => firstHostIndex es a.Host < firstHostIndex es b.Host) := by
  have h := pairwise_firstIndex_foldl_addUniqueString (fun h => h ≠ [])
    (es.map (fun e => extractHost e.Request.URL))
  rw [← hostMap_keys, ← hostMap_hosts, List.pairwise_map] at h
  exact h

theorem apiMap_first_seen (es : List Entry) :
    ((es.foldl apiStep []).map Prod.snd).Pairwise
      (fun a b => firstAPIIndex es a < firstAPIIndex es b) := by
  have h := pairwise_firstIndex_foldl_addUniqueString (fun _ => true) (es.map apiKey)
  rw [List.filter_true] at h
  have hk := apiMap_keys es []
  simp only [List.map_nil] at hk
  rw [← hk, ← apiMap_keys_of_records, List.pairwise_map] at h
  exact h

/-- A list that agrees with `l` on every class of equal keys lists elements
with equal keys in the order of `l`. -/
theorem pairwise_of_stable {α : Type} (f : α → Nat) (R : α → α → Prop) (l l' : List α)
    (hl : l.Pairwise R)
    (hst : ∀ x : α, l'.filter (fun y => decide (f y = f x)) = l.filter (fun y => decide (f y = f x))) :
    l'.Pairwise (fun a b => f a = f b → R a b) := by
  rw [List.pairwise_iff_forall_sublist]
  intro a b hab heq
  have h1 := hab.filter (fun y => decide (f y = f a))
  have h2 : List.filter (fun y => decide (f y = f a)) [a, b] = [a, b] := by
    simp [heq]
  rw [h2, hst a] at h1
  exact List.pairwise_iff_forall_sublist.1 hl (h1.trans (List.filter_sublist l))

/-! ## The `strings` routines -/

theorem stringsContains_iff (s sub : Str) : stringsContains s sub = true ↔ sub <:+: s := by
  induction s with
  | nil => simp [stringsContains]
  | cons c cs ih =>
    simp only [stringsContains, Bool.or_eq_true, ih, List.isPrefixOf_iff_prefix,
      List.infix_cons_iff]

theorem stringsContains_eq_decide (s sub : Str) :
    stringsContains s sub = decide (sub <:+: s) := by
  rw [Bool.eq_iff_iff, stringsContains_iff, decide_eq_true_iff]

theorem stringsContains_singleton (s : Str) (c : Char) :
    stringsContains s [c] = true ↔ c ∈ s := by
  rw [stringsContains_iff]
  constructor
  · rintro ⟨a, b, h⟩
    rw [← h]
    simp
  · intro h
    obtain ⟨a, b, h'⟩ := List.mem_iff_append.1 h
    exact ⟨a, b, by rw [h']; simp⟩

theorem stringsSplit_cons_of_ne (sep c : Char) (t : Str) (hc : c ≠ sep) :
    stringsSplit sep (c :: t) =
      match stringsSplit sep t with
      | [] => [[c]]
      | p :: ps => (c :: p) :: ps := by
  simp only [stringsSplit, hc, if_false]

theorem stringsSplit_of_not_mem (sep : Char) (s : Str) (h : sep ∉ s) :
    stringsSplit sep s = [s] := by
  induction s with
  | nil => rfl
  | cons c cs ih =>
    have hc : c ≠ sep := fun e => h (e ▸ List.mem_cons_self _ _)
    have hcs : sep ∉ cs := fun e => h (List.mem_cons_of_mem _ e)
    rw [stringsSplit_cons_of_ne sep c cs hc, ih hcs]

theorem stringsSplit_append_sep (sep : Char) (s r : Str) (h : sep ∉ s) :
    stringsSplit sep (s ++ sep :: r) = s :: stringsSplit sep r := by
  induction s with
  | nil => simp [stringsSplit]
  | cons c cs ih =>
    have hc : c ≠ sep := fun e => h (e ▸ List.mem_cons_self _ _)
    have hcs : sep ∉ cs := fun e => h (List.mem_cons_of_mem _ e)
    rw [List.cons_append, stringsSplit_cons_of_ne sep c _ hc, ih hcs]

/-- Splitting is the inverse of joining segments that are free of the
separator. -/
theorem stringsSplit_stringsJoin (sep : Char) (segs : List Str) (hne : segs ≠ [])
    (h : ∀ seg ∈ segs, sep ∉ seg) : stringsSplit sep (stringsJoin sep segs) = segs := by
  induction segs with
  | nil => exact absurd rfl hne
  | cons s rest ih =>
    cases rest with
    | nil => exact stringsSplit_of_not_mem sep s (h s (List.mem_cons_self _ _))
    | cons t rest' =>
      simp only [stringsJoin]
      rw [stringsSplit_append_sep sep s _ (h s (List.mem_cons_self _ _)),
        ih (List.cons_ne_nil _ _) (fun seg hs => h seg (List.mem_cons_of_mem _ hs))]

/-- The pieces returned by `stringsSplit` are free of the separator and join
back to the text. -/
theorem stringsSplit_spec (sep : Char) (s : Str) :
    stringsSplit sep s ≠ [] ∧ (∀ seg ∈ stringsSplit sep s, sep ∉ seg) ∧
      stringsJoin sep (stringsSplit sep s) = s := by
  induction s with
  | nil => simp [stringsSplit, stringsJoin]
  | cons c cs ih =>
    obtain ⟨hne, hfree, hjoin⟩ := ih
    by_cases hc : c = sep
    · subst hc
      simp only [stringsSplit, if_true]
      refine ⟨List.cons_ne_nil _ _, ?_, ?_⟩
      · intro seg hseg
        rcases List.mem_cons.1 hseg with h | h
        · rw [h]; exact List.not_mem_nil _
        · exact hfree seg h
      · cases hsp : stringsSplit c cs with
        | nil => exact absurd hsp hne
        | cons p ps =>
          rw [hsp] at hjoin
          simp only [stringsJoin, List.nil_append, hjoin]
    · rw [stringsSplit_cons_of_ne sep c cs hc]
      cases hsp : stringsSplit sep cs with
      | nil => exact absurd hsp hne
      | cons p ps =>
        rw [hsp] at hjoin hfree
        refine ⟨List.cons_ne_nil _ _, ?_, ?_⟩
        · intro seg hseg
          rcases List.mem_cons.1 hseg with h | h
          · rw [h]
            intro hm
            rcases List.mem_cons.1 hm with h' | h'
            · exact hc h'.symm
            · exact hfree p (List.mem_cons_self _ _) h'
          · exact hfree seg (List.mem_cons_of_mem _ h)
        · cases ps with
          | nil =>
            simp only [stringsJoin] at hjoin ⊢
            rw [hjoin]
          | cons q qs =>
            simp only [stringsJoin] at hjoin ⊢
            rw [← hjoin]
            rfl

/-- The two pieces of `stringsSplitN2`: present exactly when the separator
occurs, the first being the text before its first occurrence. -/
theorem stringsSplitN2_spec (sep : Char) (s : Str) :
    (sep ∈ s → ∃ q, stringsSplitN2 sep s = [s.takeWhile (fun c => decide (c ≠ sep)), q]) ∧
    (sep ∉ s → stringsSplitN2 sep s = [s]) := by
  induction s with
  | nil => simp [stringsSplitN2]
  | cons c cs ih =>
    by_cases hc : c = sep
    · subst hc
      simp [stringsSplitN2]
    · have hc' : ¬ sep = c := fun e => hc e.symm
      constructor
      · intro hm
        have hm' : sep ∈ cs := by
          rcases List.mem_cons.1 hm with h | h
          · exact absurd h hc'
          · exact h
        obtain ⟨q, hq⟩ := ih.1 hm'
        exact ⟨q, by simp [stringsSplitN2, hc, hq]⟩
      · intro hm
        have hm' : sep ∉ cs := fun e => hm (List.mem_cons_of_mem _ e)
        simp [stringsSplitN2, hc, ih.2 hm']

theorem countFormPair_eq_countSegment (params : List (Str × Nat)) (pair : Str) :
    countFormPair params pair = countSegment params pair := by
  unfold countFormPair countSegment
  by_cases h : '=' ∈ pair
  · obtain ⟨q, hq⟩ := (stringsSplitN2_spec '=' pair).1 h
    simp [hq, h]
  · simp [(stringsSplitN2_spec '=' pair).2 h, h]

/-- A body that is not decoded as a JSON object is read as form data when it
contains both `=` and `&`, and contributes nothing otherwise. -/
theorem extractPostParameters_of_not_object (rt : Runtime) (body : Str)
    (params : List (Str × Nat)) (h : NotJSONObject rt body) :
    extractPostParameters rt body params =
      if '=' ∈ body ∧ '&' ∈ body then (stringsSplit '&' body).foldl countSegment params
      else params := by
  have hfun : countFormPair = countSegment := by
    funext m pair
    exact countFormPair_eq_countSegment m pair
  unfold NotJSONObject at h
  unfold extractPostParameters
  cases hres : rt.jsonUnmarshal body with
  | error =>
    simp only [hfun, Bool.and_eq_true]
    have h1 := stringsContains_singleton body '='
    have h2 := stringsContains_singleton body '&'
    simp only [show "=".toList = ['='] from rfl, show "&".toList = ['&'] from rfl, h1, h2]
  | nilMap =>
    rw [hres] at h
    have hne : '=' ∉ body := fun hm => by
      have := h '=' hm
      revert this
      decide
    simp only [extractJSONKeys, extractJSONMembers, hne, false_and, if_false]
  | object members =>
    rw [hres] at h
    exact absurd h not_false

/-! ## Small lists under `range` and `sort.Slice` -/

theorem perm_pair_sorted {α : Type} (f : α → Nat) (a b : α) (l : List α)
    (hp : l.Perm [a, b]) (hs : l.Pairwise (fun x y => f x ≥ f y)) (hab : f b < f a) :
    l = [a, b] := by
  have hlen := hp.length_eq
  match l, hp, hs, hlen with
  | [x, y], hp, hs, _ =>
    have hx : x ∈ [a, b] := hp.subset (List.mem_cons_self _ _)
    have hxy : f x ≥ f y := (List.pairwise_cons.1 hs).1 y (List.mem_cons_self _ _)
    simp only [List.mem_cons, List.mem_singleton, List.not_mem_nil, or_false] at hx
    rcases hx with hx | hx
    · subst hx
      have := (List.perm_cons x).1 hp
      rw [List.perm_singleton.1 this]
    · subst hx
      have ha : a ∈ [x, y] := hp.symm.subset (List.mem_cons_self _ _)
      simp only [List.mem_cons, List.mem_singleton, List.not_mem_nil, or_false] at ha
      rcases ha with ha | ha
      · subst ha; omega
      · subst ha; omega

/-- Both result lists are ordered non-increasing by their count. -/
theorem results_sorted_by_count (rt : Runtime) (hs : rt.SortOK) (entries : List Entry) :
    (AnalyzeHARFile rt entries).Hosts.Pairwise (fun a b => a.RequestCount ≥ b.RequestCount) ∧
    (AnalyzeHARFile rt entries).APIs.Pairwise (fun a b => a.CallCount ≥ b.CallCount) := by
  constructor
  · refine ((hs HostInfo hostLess _).2 hostLess_ok).imp ?_
    intro a b hab
    simp only [hostLess, decide_eq_false_iff_not] at hab
    omega
  · refine ((hs APIInfo apiLess _).2 apiLess_ok).imp ?_
    intro a b hab
    simp only [apiLess, decide_eq_false_iff_not] at hab
    omega

/-! ## The frequency tables of the report -/

theorem itemLess_ok : LessOK itemLess := by
  refine ⟨fun a => by simp [itemLess], fun a b c => ?_, fun a b c => ?_⟩ <;>
    simp only [itemLess, decide_eq_true_eq, decide_eq_false_iff_not] <;> omega

theorem sortedItems_perm (rt : Runtime) (hr : rt.RangeOK) (hs : rt.SortOK)
    (items : List (Str × Nat)) (minCount : Int) :
    (sortedItems rt items minCount).Perm
      (items.filter (fun p => decide ((p.2 : Int) > minCount))) :=
  ((hs (Str × Nat) itemLess _).1).trans ((hr Nat items).filter _)

theorem sortedItems_length (rt : Runtime) (hr : rt.RangeOK) (hs : rt.SortOK)
    (items : List (Str × Nat)) (minCount : Int) :
    (sortedItems rt items minCount).length = qualifying items minCount :=
  (sortedItems_perm rt hr hs items minCount).length_eq

theorem sortedItems_sorted (rt : Runtime) (hs : rt.SortOK)
    (items : List (Str × Nat)) (minCount : Int) :
    (sortedItems rt items minCount).Pairwise (fun a b => a.2 ≥ b.2) := by
  refine ((hs (Str × Nat) itemLess _).2 itemLess_ok).imp ?_
  intro a b hab
  simp only [itemLess, decide_eq_false_iff_not] at hab
  omega

/-- The rows written by the loop over the sorted items: the first `maxItems - i`
items, then the ellipsis and total rows if items remain. -/
theorem writeItemRows_eq (total : Nat) (l : List (Str × Nat)) (i : Nat) :
    writeItemRows total i l =
      (l.take (maxItems - i)).map dataRow ++
        (if maxItems - i < l.length then [ellipsisRow, totalRow total] else []) := by
  induction l generalizing i with
  | nil => simp [writeItemRows]
  | cons item rest ih =>
    by_cases hi : i ≥ maxItems
    · have h0 : maxItems - i = 0 := by omega
      simp [writeItemRows, hi, h0]
    · have h1 : maxItems - i = (maxItems - (i + 1)) + 1 := by omega
      simp only [writeItemRows, hi, if_false, ih (i + 1)]
      rw [h1, List.take_succ_cons, List.map_cons, List.cons_append, List.length_cons]
      simp only [Nat.add_lt_add_iff_right]

/-! ## The tracked time span -/

theorem loop_times (rt : Runtime) (es : List Entry) (i : Nat) (hi : i ≠ 0) (st : AggState) :
    (loop rt i es st).startTime = (parsedInstants rt es).foldl min st.startTime ∧
    (loop rt i es st).endTime = (parsedInstants rt es).foldl max st.endTime := by
  induction es generalizing i st with
  | nil => exact ⟨rfl, rfl⟩
  | cons e rest ih =>
    have hrec := ih (i + 1) (Nat.succ_ne_zero i) (step rt i st e)
    simp only [loop]
    rw [hrec.1, hrec.2]
    cases hp : rt.timeParse e.StartedDateTime with
    | none =>
      simp only [parsedInstants, List.filterMap_cons, hp, step]
      exact ⟨trivial, trivial⟩
    | some t =>
      simp only [parsedInstants, List.filterMap_cons, hp, step, hi, false_or, List.foldl_cons]
      constructor
      · congr 1
        by_cases h : t < st.startTime
        · simp only [h, if_true]; exact (min_eq_right (le_of_lt h)).symm
        · simp only [h, if_false]; exact (min_eq_left (not_lt.1 h)).symm
      · congr 1
        by_cases h : t > st.endTime
        · simp only [h, if_true]; exact (max_eq_right (le_of_lt h)).symm
        · simp only [h, if_false]; exact (max_eq_left (not_lt.1 h)).symm

/-- When the timestamp of the first entry parses, the tracked instants are the
minimum and the maximum of the parsed instants. -/
theorem times_of_parsed_first (rt : Runtime) (e : Entry) (rest : List Entry) (t0 : Int)
    (h : rt.timeParse e.StartedDateTime = some t0) :
    (aggregate rt (e :: rest)).startTime = (parsedInstants rt rest).foldl min t0 ∧
    (aggregate rt (e :: rest)).endTime = (parsedInstants rt rest).foldl max t0 := by
  have hrec := loop_times rt rest 1 (by decide) (step rt 0 initState e)
  simp only [aggregate, loop]
  rw [hrec.1, hrec.2]
  simp only [step, h, true_or, if_true]
  exact ⟨trivial, trivial⟩

/-- When the timestamp of the first entry does not parse, the tracked start is
the minimum of the zero instant and the parsed instants, and the tracked end the
maximum of the zero instant and the parsed instants. -/
theorem times_of_unparsed_first (rt : Runtime) (e : Entry) (rest : List Entry)
    (h : rt.timeParse e.StartedDateTime = none) :
    (aggregate rt (e :: rest)).startTime = (parsedInstants rt rest).foldl min 0 ∧
    (aggregate rt (e :: rest)).endTime = (parsedInstants rt rest).foldl max 0 := by
  have hrec := loop_times rt rest 1 (by decide) (step rt 0 initState e)
  simp only [aggregate, loop]
  rw [hrec.1, hrec.2]
  simp only [step, h, initState]
  exact ⟨trivial, trivial⟩

/-! ## The URL expressions -/

theorem stripPrefix_eq_some (p s r : Str) : stripPrefix p s = some r ↔ s = p ++ r := by
  induction p generalizing s with
  | nil => simp [stripPrefix, eq_comm]
  | cons c cs ih =>
    cases s with
    | nil => simp [stripPrefix]
    | cons d ds =>
      by_cases h : c = d
      · subst h; simp [stripPrefix, ih]
      · have h' : ¬ d = c := fun e => h e.symm
        simp [stripPrefix, h, h']

theorem stripPrefix_append (p r : Str) : stripPrefix p (p ++ r) = some r :=
  (stripPrefix_eq_some p (p ++ r) r).2 rfl

theorem matchScheme_http {α : Type} (k : Str → Option α) (r : Str) :
    matchScheme k ("http://".toList ++ r) = k r := by
  have h1 : stripPrefix "http".toList ("http://".toList ++ r) = some ("://".toList ++ r) :=
    (stripPrefix_eq_some _ _ _).2 rfl
  have h2 : stripPrefix "s".toList ("://".toList ++ r) = none := rfl
  simp only [matchScheme, h1, h2, Option.bind, stripPrefix_append]

theorem matchScheme_https {α : Type} (k : Str → Option α) (r : Str) :
    matchScheme k ("https://".toList ++ r) = k r := by
  have h1 : stripPrefix "http".toList ("https://".toList ++ r) = some ("s://".toList ++ r) :=
    (stripPrefix_eq_some _ _ _).2 rfl
  have h2 : stripPrefix "s".toList ("s://".toList ++ r) = some ("://".toList ++ r) :=
    (stripPrefix_eq_some _ _ _).2 rfl
  have h3 : stripPrefix "://".toList ("s://".toList ++ r) = none := rfl
  simp only [matchScheme, h1, h2, h3, Option.bind, stripPrefix_append]
  cases k r <;> rfl

theorem matchScheme_eq_some {α : Type} (k : Str → Option α) (t : Str) (a : α)
    (h : matchScheme k t = some a) :
    ∃ r, (t = "http://".toList ++ r ∨ t = "https://".toList ++ r) ∧ k r = some a := by
  unfold matchScheme at h
  cases h1 : stripPrefix "http".toList t with
  | none => rw [h1] at h; cases h
  | some r1 =>
    rw [h1] at h
    have ht : t = "http".toList ++ r1 := (stripPrefix_eq_some _ _ _).1 h1
    simp only at h
    cases h2 : (stripPrefix "s".toList r1).bind (fun r2 => (stripPrefix "://".toList r2).bind k) with
    | some b =>
      rw [h2] at h
      simp only [Option.some.injEq] at h
      subst h
      obtain ⟨r2, hr2, h3⟩ := Option.bind_eq_some.1 h2
      obtain ⟨r3, hr3, h4⟩ := Option.bind_eq_some.1 h3
      refine ⟨r3, Or.inr ?_, h4⟩
      rw [ht, (stripPrefix_eq_some _ _ _).1 hr2, (stripPrefix_eq_some _ _ _).1 hr3]
      rfl
    | none =>
      rw [h2] at h
      simp only at h
      obtain ⟨r3, hr3, h4⟩ := Option.bind_eq_some.1 h
      refine ⟨r3, Or.inl ?_, h4⟩
      rw [ht, (stripPrefix_eq_some _ _ _).1 hr3]
      rfl

theorem matchNonSlash_host (s acc : Str) :
    matchNonSlash (fun run _ => some run) acc s =
      if acc ++ s.takeWhile (fun c => decide (c ≠ '/')) = [] then none
      else some (acc ++ s.takeWhile (fun c => decide (c ≠ '/'))) := by
  induction s generalizing acc with
  | nil => simp [matchNonSlash]
  | cons c cs ih =>
    by_cases hc : c = '/'
    · simp [matchNonSlash, hc]
    · simp [matchNonSlash, hc, ih]

theorem findLeftmost_of_here {α : Type} (m : Str → Option α) (s : Str) (a : α)
    (h : m s = some a) : findLeftmost m s = some a := by
  cases s with
  | nil => simpa [findLeftmost] using h
  | cons c cs => simp [findLeftmost, h]

theorem findLeftmost_eq_some {α : Type} (m : Str → Option α) (s : Str) (a : α)
    (h : findLeftmost m s = some a) : ∃ pre t, s = pre ++ t ∧ m t = some a := by
  induction s with
  | nil => exact ⟨[], [], rfl, by simpa [findLeftmost] using h⟩
  | cons c cs ih =>
    simp only [findLeftmost] at h
    cases hm : m (c :: cs) with
    | some b =>
      rw [hm] at h
      simp only [Option.some.injEq] at h
      exact ⟨[], c :: cs, rfl, h ▸ hm⟩
    | none =>
      rw [hm] at h
      obtain ⟨pre, t, hs, ht⟩ := ih h
      exact ⟨c :: pre, t, by rw [hs]; rfl, ht⟩

theorem findLeftmost_eq_none {α : Type} (m : Str → Option α) (s : Str)
    (h : ∀ pre t, s = pre ++ t → m t = none) : findLeftmost m s = none := by
  cases hf : findLeftmost m s with
  | none => rfl
  | some a =>
    obtain ⟨pre, t, hs, ht⟩ := findLeftmost_eq_some m s a hf
    rw [h pre t hs] at ht
    cases ht

theorem pathSubmatch_eq (url : Str) :
    pathSubmatch url = findLeftmost (matchScheme (matchNonSlash pathGroup [])) url := rfl

theorem matchNonSlash_head {α : Type} (k : Str → Str → Option α) (r : Str) (a : α)
    (h : matchNonSlash k [] r = some a) : ∃ c rest, r = c :: rest ∧ c ≠ '/' := by
  cases r with
  | nil => simp [matchNonSlash] at h
  | cons c cs =>
    by_cases hc : c = '/'
    · simp [matchNonSlash, hc] at h
    · exact ⟨c, cs, rfl, hc⟩

theorem pathGroup_eq_some (run rest p : Str) (h : pathGroup run rest = some p) :
    ∃ r, rest = '/' :: r ∧
      p = '/' :: r.takeWhile (fun c => decide (c ≠ '?') && decide (c ≠ '#')) := by
  unfold pathGroup at h
  split at h
  · rename_i r
    exact ⟨r, rfl, by simpa using h.symm⟩
  · cases h

theorem pathGroup_of_not_slash (run : Str) (c : Char) (cs : Str) (hc : c ≠ '/') :
    pathGroup run (c :: cs) = none := by
  cases h : pathGroup run (c :: cs) with
  | none => rfl
  | some p =>
    obtain ⟨r, hr, _⟩ := pathGroup_eq_some run (c :: cs) p h
    simp only [List.cons.injEq] at hr
    exact absurd hr.1 hc

/-- The run `[^/]+` of the path expression is the longest one: a shorter run
is followed by a character other than `/`, which the group rejects. -/
theorem matchNonSlash_path (s acc : Str) :
    matchNonSlash pathGroup acc s =
      if acc ++ s.takeWhile (fun c => decide (c ≠ '/')) = [] then none
      else pathGroup (acc ++ s.takeWhile (fun c => decide (c ≠ '/')))
        (s.dropWhile (fun c => decide (c ≠ '/'))) := by
  induction s generalizing acc with
  | nil => simp [matchNonSlash]
  | cons c cs ih =>
    by_cases hc : c = '/'
    · simp [matchNonSlash, hc]
    · simp only [matchNonSlash, hc, if_false, ih, List.takeWhile_cons, List.dropWhile_cons,
        ne_eq, not_false_eq_true, decide_True, if_true, pathGroup_of_not_slash acc c cs hc]
      simp only [List.append_assoc, List.singleton_append, List.append_eq_nil, and_false,
        if_false, ite_self]
      split
      · rename_i heq
        exact heq.symm
      · rename_i heq
        exact heq.symm

theorem takeWhile_not_slash_append (a rest : Str) (h : '/' ∉ a) :
    (a ++ '/' :: rest).takeWhile (fun c => decide (c ≠ '/')) = a := by
  induction a with
  | nil => simp
  | cons c cs ih =>
    have hc : c ≠ '/' := fun e => h (e ▸ List.mem_cons_self _ _)
    have hcs : '/' ∉ cs := fun e => h (List.mem_cons_of_mem _ e)
    simpa [hc] using ih hcs

theorem dropWhile_not_slash_append (a rest : Str) (h : '/' ∉ a) :
    (a ++ '/' :: rest).dropWhile (fun c => decide (c ≠ '/')) = '/' :: rest := by
  induction a with
  | nil => simp
  | cons c cs ih =>
    have hc : c ≠ '/' := fun e => h (e ▸ List.mem_cons_self _ _)
    have hcs : '/' ∉ cs := fun e => h (List.mem_cons_of_mem _ e)
    simpa [hc] using ih hcs

theorem scheme_append (scheme r : Str) (hs : scheme = "http".toList ∨ scheme = "https".toList) :
    scheme ++ "://".toList ++ r = "http://".toList ++ r ∨
    scheme ++ "://".toList ++ r = "https://".toList ++ r := by
  rcases hs with h | h
  · left; rw [h]; rfl
  · right; rw [h]; rfl

theorem matchScheme_scheme {α : Type} (k : Str → Option α) (scheme r : Str)
    (hs : scheme = "http".toList ∨ scheme = "https".toList) :
    matchScheme k (scheme ++ "://".toList ++ r) = k r := by
  rcases scheme_append scheme r hs with h | h
  · rw [h, matchScheme_http]
  · rw [h, matchScheme_https]

theorem extractHost_of_scheme (scheme r : Str)
    (hs : scheme = "http".toList ∨ scheme = "https".toList)
    (hne : r.takeWhile (fun c => decide (c ≠ '/')) ≠ []) :
    extractHost (scheme ++ "://".toList ++ r) = r.takeWhile (fun c => decide (c ≠ '/')) := by
  unfold extractHost hostSubmatch
  rw [findLeftmost_of_here _ _ (r.takeWhile (fun c => decide (c ≠ '/')))]
  · rfl
  · rw [matchScheme_scheme _ scheme r hs, matchNonSlash_host]
    simp only [List.nil_append, hne, if_false]

/-- No match of the host or path expression in a text without an occurrence of
`http://` or `https://` followed by a character other than `/`. -/
theorem no_submatch_of_noURLInside {α : Type} (k : Str → Str → Option α) (url : Str)
    (h : NoURLInside url) : findLeftmost (matchScheme (matchNonSlash k [])) url = none := by
  apply findLeftmost_eq_none
  intro pre t hurl
  cases hm : matchScheme (matchNonSlash k []) t with
  | none => rfl
  | some a =>
    obtain ⟨r, ht, hk⟩ := matchScheme_eq_some _ t a hm
    obtain ⟨c, rest, hr, hc⟩ := matchNonSlash_head k r a hk
    rcases ht with ht | ht
    · exact absurd ⟨pre, rest, by rw [hurl, ht, hr]; simp⟩ (h c hc).1
    · exact absurd ⟨pre, rest, by rw [hurl, ht, hr]; simp⟩ (h c hc).2

/-- For every text the extracted path begins with `/` and contains neither `?`
nor `#`. -/
theorem extractPath_shape (url : Str) :
    ∃ r, extractPath url = '/' :: r ∧ '?' ∉ r ∧ '#' ∉ r := by
  unfold extractPath
  cases hp : pathSubmatch url with
  | none => exact ⟨[], rfl, List.not_mem_nil _, List.not_mem_nil _⟩
  | some p =>
    rw [pathSubmatch_eq] at hp
    obtain ⟨pre, t, _, ht⟩ := findLeftmost_eq_some _ _ _ hp
    obtain ⟨r0, _, hk⟩ := matchScheme_eq_some _ t p ht
    rw [matchNonSlash_path] at hk
    split at hk
    · cases hk
    · obtain ⟨r, _, hpr⟩ := pathGroup_eq_some _ _ _ hk
      refine ⟨_, by rw [Option.getD_some, hpr], ?_, ?_⟩
      · intro hm
        have := List.mem_takeWhile_imp hm
        simp at this
      · intro hm
        have := List.mem_takeWhile_imp hm
        simp at this

/-- A tail that begins with `/` after a non-empty authority free of `/`: the
path is the longest prefix of the tail without `?` and `#`. -/
theorem extractPath_of_slash_tail (scheme authority t : Str)
    (hs : scheme = "http".toList ∨ scheme = "https".toList)
    (hne : authority ≠ []) (hslash : '/' ∉ authority) :
    extractPath (scheme ++ "://".toList ++ (authority ++ '/' :: t)) =
      ('/' :: t).takeWhile (fun c => decide (c ≠ '?') && decide (c ≠ '#')) := by
  unfold extractPath
  rw [pathSubmatch_eq, findLeftmost_of_here _ _
    ('/' :: t.takeWhile (fun c => decide (c ≠ '?') && decide (c ≠ '#')))]
  · simp
  · rw [matchScheme_scheme _ scheme _ hs, matchNonSlash_path,
      takeWhile_not_slash_append authority t hslash,
      dropWhile_not_slash_append authority t hslash]
    simp only [List.nil_append, hne, if_false]
    rfl

/-- No `/` after the scheme separator: the path is `/`. -/
theorem extractPath_of_no_slash (scheme x : Str)
    (hs : scheme = "http".toList ∨ scheme = "https".toList) (hx : '/' ∉ x) :
    extractPath (scheme ++ "://".toList ++ x) = "/".toList := by
  have hcount : (scheme ++ "://".toList ++ x).countP (fun c => decide (c = '/')) = 2 := by
    have hx0 : x.countP (fun c => decide (c = '/')) = 0 := by
      rw [List.countP_eq_zero]
      intro c hc hcs
      simp only [decide_eq_true_eq] at hcs
      exact hx (hcs ▸ hc)
    rcases hs with h | h <;> rw [h, List.countP_append, hx0] <;> decide
  have hnone : pathSubmatch (scheme ++ "://".toList ++ x) = none := by
    rw [pathSubmatch_eq]
    apply findLeftmost_eq_none
    intro pre t hurl
    cases hm : matchScheme (matchNonSlash pathGroup []) t with
    | none => rfl
    | some a =>
      exfalso
      obtain ⟨r, ht, hk⟩ := matchScheme_eq_some _ t a hm
      rw [matchNonSlash_path] at hk
      split at hk
      · cases hk
      · obtain ⟨r', hr', _⟩ := pathGroup_eq_some _ _ _ hk
        have hmem : '/' ∈ r := by
          have : '/' ∈ r.dropWhile (fun c => decide (c ≠ '/')) := by
            rw [hr']; exact List.mem_cons_self _ _
          exact (List.dropWhile_sublist _).subset this
        have hr1 : 1 ≤ r.countP (fun c => decide (c = '/')) :=
          List.countP_pos_iff.2 ⟨'/', hmem, by simp⟩
        have h3 : 3 ≤ (pre ++ t).countP (fun c => decide (c = '/')) := by
          rcases ht with ht | ht <;>
            (rw [ht, List.countP_append, List.countP_append]
             have h2 : ("http://".toList).countP (fun c => decide (c = '/')) = 2 := by decide
             have h2' : ("https://".toList).countP (fun c => decide (c = '/')) = 2 := by decide
             omega)
        rw [← hurl, hcount] at h3
        omega
  unfold extractPath
  rw [hnone]
  rfl

/-! ## The records of the API list -/

/-- A map filled by successive assignments binds a name to the value of the
last item with that name. -/
theorem mapGet_foldl_mapSet {ι : Type} (f : ι → Str) (g : ι → Str) (l : List ι) (name : Str) :
    mapGet (l.foldl (fun m x => mapSet m (f x) (g x)) []) name =
      (l.reverse.find? (fun x => decide (f x = name))).map g := by
  induction l using List.reverseRecOn with
  | nil => rfl
  | append_singleton l' x ih =>
    rw [List.foldl_append, List.reverse_append]
    simp only [List.foldl_cons, List.foldl_nil, List.reverse_cons, List.reverse_nil,
      List.nil_append, List.singleton_append, List.find?_cons]
    by_cases hx : f x = name
    · simp only [hx, decide_True, Option.map_some']
      rw [← hx, mapGet_mapSet_self]
    · simp only [hx, decide_False]
      rw [mapGet_mapSet_ne _ _ _ _ hx, ih]

theorem keys_foldl_mapSet {ι : Type} (f : ι → Str) (g : ι → Str) (l : List ι)
    (m0 : List (Str × Str)) :
    (l.foldl (fun m x => mapSet m (f x) (g x)) m0).map Prod.fst =
      (l.map f).foldl addUniqueString (m0.map Prod.fst) := by
  induction l generalizing m0 with
  | nil => rfl
  | cons x rest ih => simp only [List.foldl_cons, List.map_cons, ih, keys_mapSet]

/-- The header snapshot of a new record is filled from the important headers
of the entry. -/
theorem newAPIInfo_headers (e : Entry) :
    (newAPIInfo e).Headers =
      (e.Request.Headers.filter (fun h => isImportantHeader h.Name)).foldl
        (fun m h => mapSet m h.Name h.Value) [] := by
  simp only [newAPIInfo]
  generalize ([] : List (Str × Str)) = m0
  induction e.Request.Headers generalizing m0 with
  | nil => rfl
  | cons h rest ih =>
    by_cases hi : isImportantHeader h.Name = true
    · simp only [List.foldl_cons, hi, if_true, List.filter_cons, ih]
    · have hi' : isImportantHeader h.Name = false := by simpa using hi
      simp [List.foldl_cons, hi', List.filter_cons, ih]

/-- Every record of the API list is the one created from the first entry with
its key, with the number of entries of that key as call count. -/
theorem api_record_origin (rt : Runtime) (hr : rt.RangeOK) (hs : rt.SortOK)
    (entries : List Entry) (r : APIInfo) (h : r ∈ (AnalyzeHARFile rt entries).APIs) :
    ∃ e0, entries.find? (fun e => apiKey e = r.Method ++ ' ' :: r.Path) = some e0 ∧
      e0 ∈ entries ∧
      r = { newAPIInfo e0 with
            CallCount := entries.countP (fun e => apiKey e = r.Method ++ ' ' :: r.Path) } := by
  obtain ⟨q, hq, hqr⟩ := List.mem_map.1 ((apis_perm rt hr hs entries).mem_iff.1 h)
  obtain ⟨e0, hfind, he0, hk, hrec⟩ := apiMap_binding entries q.1 q.2 hq
  have hkey : r.Method ++ ' ' :: r.Path = q.1 := by
    rw [← hqr, hrec, ← hk]
    rfl
  rw [hkey]
  exact ⟨e0, hfind, he0, by rw [← hqr]; exact hrec⟩

/-! ## The keys counted in a JSON body -/

mutual
theorem extractJSONKeys_eq_foldl : ∀ (v : JSONValue) (p : Str) (params : List (Str × Nat)),
    extractJSONKeys v p params = (jsonPaths v p).foldl mapIncr params
  | JSONValue.object members, p, params => by
    rw [extractJSONKeys, jsonPaths]
    exact extractJSONMembers_eq_foldl members p params
  | JSONValue.array items, p, params => by
    rw [extractJSONKeys, jsonPaths]
    exact extractJSONItems_eq_foldl items p 0 params
  | JSONValue.null, _, _ => by simp [extractJSONKeys, jsonPaths]
  | JSONValue.bool _, _, _ => by simp [extractJSONKeys, jsonPaths]
  | JSONValue.number _, _, _ => by simp [extractJSONKeys, jsonPaths]
  | JSONValue.string _, _, _ => by simp [extractJSONKeys, jsonPaths]
theorem extractJSONMembers_eq_foldl : ∀ (members : List (Str × JSONValue)) (p : Str)
    (params : List (Str × Nat)),
    extractJSONMembers members p params = (jsonMemberPaths members p).foldl mapIncr params
  | [], _, _ => by simp [extractJSONMembers, jsonMemberPaths]
  | (k, v) :: rest, p, params => by
    rw [extractJSONMembers, jsonMemberPaths]
    simp only [List.foldl_cons, List.foldl_append]
    rw [extractJSONMembers_eq_foldl rest p, extractJSONKeys_eq_foldl v]
theorem extractJSONItems_eq_foldl : ∀ (items : List JSONValue) (p : Str) (i : Nat)
    (params : List (Str × Nat)),
    extractJSONItems items p i params = (jsonItemPaths items p i).foldl mapIncr params
  | [], _, _, _ => by simp [extractJSONItems, jsonItemPaths]
  | item :: rest, p, i, params => by
    rw [extractJSONItems, jsonItemPaths]
    simp only [List.foldl_append]
    rw [extractJSONItems_eq_foldl rest p, extractJSONKeys_eq_foldl item]
end

theorem mapCount_mapIncr (m : List (Str × Nat)) (k k' : Str) :
    mapCount (mapIncr m k) k' = mapCount m k' + (if k = k' then 1 else 0) := by
  by_cases h : k = k'
  · subst h
    simp only [mapCount, mapIncr, mapGet_mapSet_self, Option.getD_some, if_true]
  · simp only [mapCount, mapIncr, mapGet_mapSet_ne _ _ _ _ h, h, if_false, Nat.add_zero]

theorem mapCount_foldl_mapIncr (l : List Str) (m : List (Str × Nat)) (k : Str) :
    mapCount (l.foldl mapIncr m) k = mapCount m k + l.countP (fun q => decide (q = k)) := by
  induction l generalizing m with
  | nil => simp
  | cons q rest ih =>
    rw [List.foldl_cons, ih, mapCount_mapIncr, List.countP_cons]
    by_cases h : q = k
    · simp only [h, if_true, decide_True]; omega
    · simp [h]

theorem mapGet_foldl_mapIncr_of_not_mem (l : List Str) (m : List (Str × Nat)) (k : Str)
    (h : k ∉ l) : mapGet (l.foldl mapIncr m) k = mapGet m k := by
  induction l generalizing m with
  | nil => rfl
  | cons q rest ih =>
    have hq : q ≠ k := fun e => h (e ▸ List.mem_cons_self _ _)
    rw [List.foldl_cons, ih _ (fun e => h (List.mem_cons_of_mem _ e))]
    exact mapGet_mapSet_ne _ _ _ _ hq

theorem keys_foldl_mapIncr (l : List Str) (m : List (Str × Nat)) :
    (l.foldl mapIncr m).map Prod.fst = l.foldl addUniqueString (m.map Prod.fst) := by
  induction l generalizing m with
  | nil => rfl
  | cons q rest ih =>
    rw [List.foldl_cons, ih, List.foldl_cons]
    simp only [mapIncr, keys_mapSet]

/-! ## Sums of the counts -/

/-- Replacing the binding of a key changes the sum of a numeric field by the
difference between the new and the old value of the field. -/
theorem sum_mapSet {β : Type} (f : β → Nat) (m : List (Str × β)) (k : Str) (v : β) :
    ((mapSet m k v).map (fun p => f p.2)).sum + ((mapGet m k).map f).getD 0 =
      (m.map (fun p => f p.2)).sum + f v := by
  induction m with
  | nil => simp [mapSet, mapGet]
  | cons p rest ih =>
    obtain ⟨k0, v0⟩ := p
    by_cases h0 : k0 = k
    · simp only [mapSet, mapGet, h0, if_true, List.map_cons, List.sum_cons, Option.map_some',
        Option.getD_some]
      omega
    · simp only [mapSet, mapGet, h0, if_false, List.map_cons, List.sum_cons]
      omega

theorem sum_apiStep (m : List (Str × APIInfo)) (e : Entry) :
    ((apiStep m e).map (fun p => p.2.CallCount)).sum =
      (m.map (fun p => p.2.CallCount)).sum + 1 := by
  have h := sum_mapSet (fun r : APIInfo => r.CallCount) m (apiKey e)
    (bumpCallCount ((mapGet m (apiKey e)).getD (newAPIInfo e)))
  have hv : (bumpCallCount ((mapGet m (apiKey e)).getD (newAPIInfo e))).CallCount =
      ((mapGet m (apiKey e)).map (fun r : APIInfo => r.CallCount)).getD 0 + 1 := by
    cases mapGet m (apiKey e) <;> simp [bumpCallCount, newAPIInfo]
  simp only [apiStep]
  omega

theorem sum_hostStep (m : List (Str × HostInfo)) (e : Entry) :
    ((hostStep m e).map (fun p => p.2.RequestCount)).sum =
      (m.map (fun p => p.2.RequestCount)).sum +
        (if extractHost e.Request.URL ≠ [] then 1 else 0) := by
  by_cases hh : extractHost e.Request.URL = []
  · simp only [hostStep, hh, ne_eq, not_true_eq_false, if_false, Nat.add_zero]
  · have h := sum_mapSet (fun r : HostInfo => r.RequestCount) m (extractHost e.Request.URL)
      (hostUpdate e ((mapGet m (extractHost e.Request.URL)).getD
        (newHostInfo (extractHost e.Request.URL))))
    have hv : (hostUpdate e ((mapGet m (extractHost e.Request.URL)).getD
        (newHostInfo (extractHost e.Request.URL)))).RequestCount =
        ((mapGet m (extractHost e.Request.URL)).map (fun r : HostInfo => r.RequestCount)).getD 0
          + 1 := by
      cases mapGet m (extractHost e.Request.URL) <;> simp [hostUpdate, newHostInfo]
    simp only [hostStep, hh, ne_eq, not_false_eq_true, if_true]
    omega

theorem sum_foldl_apiStep (es : List Entry) (m : List (Str × APIInfo)) :
    ((es.foldl apiStep m).map (fun p => p.2.CallCount)).sum =
      (m.map (fun p => p.2.CallCount)).sum + es.length := by
  induction es generalizing m with
  | nil => simp
  | cons e rest ih =>
    rw [List.foldl_cons, ih, sum_apiStep, List.length_cons]
    omega

theorem sum_foldl_hostStep (es : List Entry) (m : List (Str × HostInfo)) :
    ((es.foldl hostStep m).map (fun p => p.2.RequestCount)).sum =
      (m.map (fun p => p.2.RequestCount)).sum +
        es.countP (fun e => decide (extractHost e.Request.URL ≠ [])) := by
  induction es generalizing m with
  | nil => simp
  | cons e rest ih =>
    rw [List.foldl_cons, ih, sum_hostStep, List.countP_cons]
    by_cases hh : extractHost e.Request.URL = []
    · simp [hh]
    · simp [hh]
      omega

/-! ## The tables written by `writeTopItems` -/

theorem mapSet_of_not_mem {β : Type} (m : List (Str × β)) (k : Str) (v : β)
    (h : k ∉ m.map Prod.fst) : mapSet m k v = m ++ [(k, v)] := by
  induction m with
  | nil => rfl
  | cons p rest ih =>
    obtain ⟨k0, v0⟩ := p
    simp only [List.map_cons, List.mem_cons, not_or] at h
    have h0 : ¬ k0 = k := fun e => h.1 e.symm
    simp only [mapSet, h0, if_false, List.cons_append, ih h.2]

/-- Assigning pairwise distinct keys that the map does not bind appends the
bindings in order. -/
theorem foldl_mapSet_of_nodup {ι : Type} (f : ι → Str) (g : ι → Str) (l : List ι)
    (m0 : List (Str × Str)) (hnd : (l.map f).Nodup)
    (hdis : ∀ x ∈ l, f x ∉ m0.map Prod.fst) :
    l.foldl (fun m x => mapSet m (f x) (g x)) m0 = m0 ++ l.map (fun x => (f x, g x)) := by
  induction l generalizing m0 with
  | nil => simp
  | cons x rest ih =>
    simp only [List.map_cons, List.nodup_cons] at hnd
    rw [List.foldl_cons, mapSet_of_not_mem m0 (f x) (g x) (hdis x (List.mem_cons_self _ _)),
      ih _ hnd.2, List.map_cons, List.append_assoc, List.singleton_append]
    intro y hy hin
    rw [List.map_append, List.mem_append] at hin
    rcases hin with hin | hin
    · exact hdis y (List.mem_cons_of_mem _ hy) hin
    · simp only [List.map_cons, List.map_nil, List.mem_singleton] at hin
      exact hnd.1 (hin ▸ List.mem_map_of_mem f hy)

/-! ## Claims -/

/-- C1. For every list of `N` decoded entries, after the aggregation pass of
`AnalyzeHARFile` the counts held in the method frequency map
`ExtractedData.Methods` add up to `N`. -/
theorem C1_methods_sum (rt : Runtime) (entries : List Entry) :
    mapSum (AnalyzeHARFile rt entries).ExtractedData.Methods = entries.length ∧
    mapSum (aggregate rt entries).data.Methods = entries.length := by
  have h : mapSum (aggregate rt entries).data.Methods = entries.length := by
    simp only [aggregate, loop_data, foldl_dataStep_methods, initState]
    simp [mapSum]
  exact ⟨h, h⟩

/-- C2 (evaluation at the failing input).  The two entries
`GET http://h/a /b` and `GET /a http://h/b` have the different (method, path)
pairs (`GET`, `/a /b`) and (`GET /a`, `/b`) and the same key `GET /a /b`.
Whatever the runtime, the API map holds a single record, for the first pair,
with call count 2, although only one entry has that method and path; the second
pair has no record.  The API list of the result is this one record. -/
theorem C2_key_collision :
    (∀ rt : Runtime,
      (aggregate rt collidingEntries).apiMap.map
          (fun p => (p.1, p.2.Method, p.2.Path, p.2.CallCount))
        = [("GET /a /b".toList, "GET".toList, "/a /b".toList, 2)]) ∧
    (AnalyzeHARFile refRuntime collidingEntries).APIs.map (fun r => (r.Method, r.Path, r.CallCount))
      = [("GET".toList, "/a /b".toList, 2)] ∧
    collidingEntries.map (fun e => (e.Request.Method, extractPath e.Request.URL))
      = [("GET".toList, "/a /b".toList), ("GET /a".toList, "/b".toList)] ∧
    collidingEntries.countP
      (fun e => e.Request.Method = "GET".toList ∧ extractPath e.Request.URL = "/a /b".toList) = 1 := by
  refine ⟨fun rt => ?_, by decide, by decide, by decide⟩
  have h : (aggregate rt collidingEntries).apiMap = collidingEntries.foldl apiStep [] := by
    simp only [aggregate, loop_apiMap, initState]
  rw [h]
  decide

/-- C3. The host list holds exactly one record per distinct non-empty host
returned by `extractHost` over the entry URLs, `Metadata.UniqueHosts` is the
number of these hosts, and an entry whose host is empty leaves the host map
as it is. -/
theorem C3_host_records (rt : Runtime) (hr : rt.RangeOK) (hs : rt.SortOK) (entries : List Entry) :
    ((AnalyzeHARFile rt entries).Hosts.map (fun r => r.Host)).Nodup ∧
    (∀ h : Str, h ∈ (AnalyzeHARFile rt entries).Hosts.map (fun r => r.Host) ↔
      h ≠ [] ∧ ∃ e ∈ entries, extractHost e.Request.URL = h) ∧
    (AnalyzeHARFile rt entries).Metadata.UniqueHosts =
      (((entries.map (fun e => extractHost e.Request.URL)).filter (fun h => h ≠ [])).dedup).length ∧
    (∀ (m : List (Str × HostInfo)) (e : Entry), extractHost e.Request.URL = [] →
      hostStep m e = m) := by
  have hp := (hosts_perm rt hr hs entries).map (fun r => r.Host)
  rw [hostMap_hosts] at hp
  refine ⟨hp.nodup_iff.2 (hostMap_nodup entries), ?_, ?_, ?_⟩
  · intro h
    rw [hp.mem_iff, hostMap_mem_key]
  · have hlen : (AnalyzeHARFile rt entries).Metadata.UniqueHosts
        = ((entries.foldl hostStep []).map Prod.fst).length := by
      simp only [AnalyzeHARFile, aggregate, loop_hostMap, initState, List.length_map]
    rw [hlen]
    apply List.Perm.length_eq
    rw [List.perm_ext_iff_of_nodup (hostMap_nodup entries) (List.nodup_dedup _)]
    intro h
    rw [hostMap_mem_key, List.mem_dedup]
    simp only [List.mem_filter, List.mem_map, ne_eq, decide_eq_true_eq, decide_not,
      Bool.not_eq_true', decide_eq_false_iff_not]
    tauto
  · intro m e he
    simp only [hostStep, he, ne_eq, not_true_eq_false, if_false]

/-- C3 at the sample entries under the reference runtime. -/
theorem C3_host_records_witness :
    refRuntime.RangeOK ∧ refRuntime.SortOK ∧
    ((AnalyzeHARFile refRuntime sampleEntries).Hosts.map (fun r => r.Host)).Nodup ∧
    (AnalyzeHARFile refRuntime sampleEntries).Metadata.UniqueHosts =
      (((sampleEntries.map (fun e => extractHost e.Request.URL)).filter (fun h => h ≠ [])).dedup).length :=
  ⟨refRuntime_rangeOK, refRuntime_sortOK,
   (C3_host_records refRuntime refRuntime_rangeOK refRuntime_sortOK sampleEntries).1,
   (C3_host_records refRuntime refRuntime_rangeOK refRuntime_sortOK sampleEntries).2.2.1⟩

/-- C4. The host list is ordered non-increasing by `RequestCount` and the API
list non-increasing by `CallCount` (every element is at least as large as each
later one, in particular as its successor), and each list is a rearrangement of
the records of its map: sorting drops and duplicates nothing. -/
theorem C4_sorted_by_count (rt : Runtime) (hr : rt.RangeOK) (hs : rt.SortOK)
    (entries : List Entry) :
    (AnalyzeHARFile rt entries).Hosts.Pairwise (fun a b => a.RequestCount ≥ b.RequestCount) ∧
    (AnalyzeHARFile rt entries).Hosts.Chain' (fun a b => a.RequestCount ≥ b.RequestCount) ∧
    (AnalyzeHARFile rt entries).APIs.Pairwise (fun a b => a.CallCount ≥ b.CallCount) ∧
    (AnalyzeHARFile rt entries).APIs.Chain' (fun a b => a.CallCount ≥ b.CallCount) ∧
    (AnalyzeHARFile rt entries).Hosts.Perm ((aggregate rt entries).hostMap.map Prod.snd) ∧
    (AnalyzeHARFile rt entries).APIs.Perm ((aggregate rt entries).apiMap.map Prod.snd) := by
  have h1 := (results_sorted_by_count rt hs entries).1
  have h2 := (results_sorted_by_count rt hs entries).2
  refine ⟨h1, List.Pairwise.chain' h1, h2, List.Pairwise.chain' h2, ?_, ?_⟩
  · have := hosts_perm rt hr hs entries
    simpa only [aggregate, loop_hostMap, initState] using this
  · have := apis_perm rt hr hs entries
    simpa only [aggregate, loop_apiMap, initState] using this

/-- C4 at the sample entries under the reference runtime. -/
theorem C4_sorted_by_count_witness :
    refRuntime.RangeOK ∧ refRuntime.SortOK ∧
    (AnalyzeHARFile refRuntime sampleEntries).APIs.Chain' (fun a b => a.CallCount ≥ b.CallCount) :=
  ⟨refRuntime_rangeOK, refRuntime_sortOK,
   (C4_sorted_by_count refRuntime refRuntime_rangeOK refRuntime_sortOK sampleEntries).2.2.2.1⟩

/-- C5 (counterexample).  Ranging over the maps in reverse insertion order and
sorting with insertion sort satisfy the contracts of `range` and `sort.Slice`.
On two entries for the hosts `a` and `b`, in this order, each seen once, the
result lists `b` before `a`, and likewise the API of the second entry before
the API of the first: ties are not in first-seen order. -/
theorem C5_ties_not_first_seen :
    revRuntime.RangeOK ∧ revRuntime.SortOK ∧
    (AnalyzeHARFile revRuntime tiedEntries).Hosts.map (fun r => (r.Host, r.RequestCount))
      = [("b".toList, 1), ("a".toList, 1)] ∧
    (AnalyzeHARFile revRuntime tiedEntries).APIs.map (fun r => (r.Method, r.Path, r.CallCount))
      = [("GET".toList, "/y".toList, 1), ("GET".toList, "/x".toList, 1)] ∧
    ¬ TiesInFirstSeenOrder tiedEntries (AnalyzeHARFile revRuntime tiedEntries) := by
  refine ⟨revRuntime_rangeOK, revRuntime_sortOK, by decide, by decide, ?_⟩
  unfold TiesInFirstSeenOrder
  decide

/-- C5 (amended).  When `range` yields the bindings of the host map and of the
API map in insertion order and the sort keeps elements that compare as equal in
their input order, records with equal counts are listed in first-seen order. -/
theorem C5_ties_first_seen_if_stable (rt : Runtime)
    (hrange : ∀ (β : Type) (m : List (Str × β)), rt.rangeOrder β m = m)
    (hstable : rt.SortStable) (entries : List Entry) :
    TiesInFirstSeenOrder entries (AnalyzeHARFile rt entries) := by
  have hH : (aggregate rt entries).hostMap = entries.foldl hostStep [] := by
    simp only [aggregate, loop_hostMap, initState]
  have hA : (aggregate rt entries).apiMap = entries.foldl apiStep [] := by
    simp only [aggregate, loop_apiMap, initState]
  constructor
  · apply pairwise_of_stable (fun r : HostInfo => r.RequestCount) _
      ((entries.foldl hostStep []).map Prod.snd) _ (hostMap_first_seen entries)
    intro x
    have h := hstable HostInfo hostLess ((entries.foldl hostStep []).map Prod.snd) x hostLess_ok
    have hp : (fun y : HostInfo => !hostLess x y && !hostLess y x) =
        (fun y => decide (y.RequestCount = x.RequestCount)) := by
      funext y
      simp only [hostLess, Bool.and_eq_true, Bool.not_eq_true', decide_eq_false_iff_not,
        decide_eq_true_eq, eq_iff_iff]
      rw [← Bool.coe_iff_coe]
      simp only [Bool.and_eq_true, Bool.not_eq_true', decide_eq_false_iff_not,
        decide_eq_true_eq]
      omega
    rw [hp] at h
    simpa only [AnalyzeHARFile, hrange, hH] using h
  · apply pairwise_of_stable (fun r : APIInfo => r.CallCount) _
      ((entries.foldl apiStep []).map Prod.snd) _ (apiMap_first_seen entries)
    intro x
    have h := hstable APIInfo apiLess ((entries.foldl apiStep []).map Prod.snd) x apiLess_ok
    have hp : (fun y : APIInfo => !apiLess x y && !apiLess y x) =
        (fun y => decide (y.CallCount = x.CallCount)) := by
      funext y
      rw [← Bool.coe_iff_coe]
      simp only [apiLess, Bool.and_eq_true, Bool.not_eq_true', decide_eq_false_iff_not,
        decide_eq_true_eq]
      omega
    rw [hp] at h
    simpa only [AnalyzeHARFile, hrange, hA] using h

/-- C5 (amended) at the two tied entries under the reference runtime. -/
theorem C5_ties_first_seen_if_stable_witness :
    (∀ (β : Type) (m : List (Str × β)), refRuntime.rangeOrder β m = m) ∧
    refRuntime.SortStable ∧
    TiesInFirstSeenOrder tiedEntries (AnalyzeHARFile refRuntime tiedEntries) :=
  ⟨fun _ _ => rfl, refRuntime_sortStable,
   C5_ties_first_seen_if_stable refRuntime (fun _ _ => rfl) refRuntime_sortStable tiedEntries⟩

/-- C6. For every MIME string, `simplifyContentType` returns the label of the
first keyword, in the order json, html, xml, javascript, css, image, text, that
occurs in it as a substring, and `Other` when none occurs.  Every string that
contains `json` is classified `JSON`; `application/json; charset=text` gives
`JSON`, not `Text`. -/
theorem C6_content_type_priority :
    (∀ s : Str, simplifyContentType s = firstKeywordLabel s) ∧
    (∀ s : Str, "json".toList <:+: s → simplifyContentType s = "JSON".toList) ∧
    simplifyContentType "application/json; charset=text".toList = "JSON".toList ∧
    simplifyContentType "application/json; charset=text".toList ≠ "Text".toList := by
  refine ⟨?_, ?_, by decide, by decide⟩
  · intro s
    simp only [simplifyContentType, firstKeywordLabel, contentTypeKeywords, List.find?_cons,
      List.find?_nil, stringsContains_eq_decide]
    generalize decide ("json".toList <:+: s) = b1
    generalize decide ("html".toList <:+: s) = b2
    generalize decide ("xml".toList <:+: s) = b3
    generalize decide ("javascript".toList <:+: s) = b4
    generalize decide ("css".toList <:+: s) = b5
    generalize decide ("image".toList <:+: s) = b6
    generalize decide ("text".toList <:+: s) = b7
    cases b1
    · cases b2
      · cases b3
        · cases b4
          · cases b5
            · cases b6
              · cases b7 <;> rfl
              · rfl
            · rfl
          · rfl
        · rfl
      · rfl
    · rfl
  · intro s h
    simp only [simplifyContentType, (stringsContains_iff s _).2 h, if_true]

/-- C6 at a MIME string that contains both `text` and `json`. -/
theorem C6_content_type_priority_witness :
    "json".toList <:+: "text/json".toList ∧
    simplifyContentType "text/json".toList = "JSON".toList :=
  ⟨⟨"text/".toList, [], rfl⟩,
   C6_content_type_priority.2.1 "text/json".toList ⟨"text/".toList, [], rfl⟩⟩

/-- C7 (counterexample).  The reference decoder reads the body
`{"a":{"b":1},"c":[1,2]}` as the object with the members `a` and `c`, and on
the empty map `extractPostParameters` yields `{a:1, a.b:1, c:1}`: the key `c`
is counted, the names `c[0]` and `c[1]` are not. -/
theorem C7_indexed_names_not_counted :
    decodeJSON sampleBody = UnmarshalResult.object [sampleMemberA, sampleMemberC] ∧
    extractPostParameters refRuntime sampleBody [] =
      [("a".toList, 1), ("a.b".toList, 1), ("c".toList, 1)] ∧
    mapGet (extractPostParameters refRuntime sampleBody []) "c[0]".toList = none ∧
    mapGet (extractPostParameters refRuntime sampleBody []) "c[1]".toList = none ∧
    mapGet (extractPostParameters refRuntime sampleBody []) "c".toList = some 1 ∧
    ¬ (extractPostParameters refRuntime sampleBody []).Perm
        [("a".toList, 1), ("a.b".toList, 1), ("c[0]".toList, 1), ("c[1]".toList, 1)] := by
  refine ⟨rfl, by decide, by decide, by decide, by decide, ?_⟩
  intro h
  have := h.length_eq
  revert this
  decide

/-- C7 (amended).  Whenever the body `{"a":{"b":1},"c":[1,2]}` is decoded as
the object with the members `a` and `c`, visited in either order, running
`extractPostParameters` on the empty map yields exactly the map
`{a:1, a.b:1, c:1}`. -/
theorem C7_flatten_sample (rt : Runtime) (members : List (Str × JSONValue))
    (hdec : rt.jsonUnmarshal sampleBody = UnmarshalResult.object members)
    (hmem : members = [sampleMemberA, sampleMemberC] ∨ members = [sampleMemberC, sampleMemberA]) :
    (extractPostParameters rt sampleBody []).Perm
      [("a".toList, 1), ("a.b".toList, 1), ("c".toList, 1)] := by
  unfold extractPostParameters
  rw [hdec]
  rcases hmem with h | h
  · subst h
    have : extractJSONKeys (JSONValue.object [sampleMemberA, sampleMemberC]) [] [] =
        [("a".toList, 1), ("a.b".toList, 1), ("c".toList, 1)] := by decide
    simp only [this]
    exact List.Perm.refl _
  · subst h
    have : extractJSONKeys (JSONValue.object [sampleMemberC, sampleMemberA]) [] [] =
        [("c".toList, 1), ("a".toList, 1), ("a.b".toList, 1)] := by decide
    simp only [this]
    exact @List.perm_append_comm _ [("c".toList, 1)] [("a".toList, 1), ("a.b".toList, 1)]

/-- C7 (amended) under the reference runtime. -/
theorem C7_flatten_sample_witness :
    refRuntime.jsonUnmarshal sampleBody = UnmarshalResult.object [sampleMemberA, sampleMemberC] ∧
    (extractPostParameters refRuntime sampleBody []).Perm
      [("a".toList, 1), ("a.b".toList, 1), ("c".toList, 1)] :=
  ⟨rfl, C7_flatten_sample refRuntime [sampleMemberA, sampleMemberC] rfl (Or.inl rfl)⟩

/-- C8. For a body that is not decoded as a JSON object: if it contains both
`=` and `&`, then for every way of writing it as `&`-separated segments (there
is one) `extractPostParameters` counts, segment by segment, the text before the
first `=` of each segment that contains `=` and skips the other segments; if
it lacks `=` or lacks `&`, the map is unchanged.  On the empty map `x=1&y=2`
gives `{x:1, y:1}`, `x=1&justkey` gives `{x:1}` and `x=1` gives the empty
map. -/
theorem C8_form_fallback (rt : Runtime) :
    (∀ (body : Str) (params : List (Str × Nat)), NotJSONObject rt body →
      (∀ segs : List Str, segs ≠ [] → (∀ seg ∈ segs, '&' ∉ seg) → body = stringsJoin '&' segs →
        '=' ∈ body → '&' ∈ body →
        extractPostParameters rt body params = segs.foldl countSegment params) ∧
      (∃ segs : List Str, segs ≠ [] ∧ (∀ seg ∈ segs, '&' ∉ seg) ∧ body = stringsJoin '&' segs) ∧
      ('=' ∉ body ∨ '&' ∉ body → extractPostParameters rt body params = params)) ∧
    (NotJSONObject rt "x=1&y=2".toList →
      extractPostParameters rt "x=1&y=2".toList [] = [("x".toList, 1), ("y".toList, 1)]) ∧
    (NotJSONObject rt "x=1&justkey".toList →
      extractPostParameters rt "x=1&justkey".toList [] = [("x".toList, 1)]) ∧
    (NotJSONObject rt "x=1".toList → extractPostParameters rt "x=1".toList [] = []) := by
  refine ⟨?_, ?_, ?_, ?_⟩
  · intro body params hnot
    refine ⟨?_, ?_, ?_⟩
    · intro segs hne hfree hjoin heq hamp
      rw [extractPostParameters_of_not_object rt body params hnot, if_pos ⟨heq, hamp⟩, hjoin,
        stringsSplit_stringsJoin '&' segs hne hfree]
    · exact ⟨stringsSplit '&' body, (stringsSplit_spec '&' body).1,
        (stringsSplit_spec '&' body).2.1, (stringsSplit_spec '&' body).2.2.symm⟩
    · intro h
      rw [extractPostParameters_of_not_object rt body params hnot, if_neg]
      rintro ⟨h1, h2⟩
      rcases h with h | h
      · exact h h1
      · exact h h2
  · intro hnot
    rw [extractPostParameters_of_not_object rt _ _ hnot]
    decide
  · intro hnot
    rw [extractPostParameters_of_not_object rt _ _ hnot]
    decide
  · intro hnot
    rw [extractPostParameters_of_not_object rt _ _ hnot]
    decide

/-- C8 under the reference runtime, whose decoder rejects the three texts. -/
theorem C8_form_fallback_witness :
    NotJSONObject refRuntime "x=1&y=2".toList ∧
    NotJSONObject refRuntime "x=1&justkey".toList ∧
    NotJSONObject refRuntime "x=1".toList ∧
    extractPostParameters refRuntime "x=1&y=2".toList [] = [("x".toList, 1), ("y".toList, 1)] ∧
    extractPostParameters refRuntime "x=1&justkey".toList [] = [("x".toList, 1)] ∧
    extractPostParameters refRuntime "x=1".toList [] = [] :=
  have h1 : NotJSONObject refRuntime "x=1&y=2".toList := by
    have h : refRuntime.jsonUnmarshal "x=1&y=2".toList = UnmarshalResult.error := rfl
    simp only [NotJSONObject, h]
  have h2 : NotJSONObject refRuntime "x=1&justkey".toList := by
    have h : refRuntime.jsonUnmarshal "x=1&justkey".toList = UnmarshalResult.error := rfl
    simp only [NotJSONObject, h]
  have h3 : NotJSONObject refRuntime "x=1".toList := by
    have h : refRuntime.jsonUnmarshal "x=1".toList = UnmarshalResult.error := rfl
    simp only [NotJSONObject, h]
  ⟨h1, h2, h3, (C8_form_fallback refRuntime).2.1 h1, (C8_form_fallback refRuntime).2.2.1 h2,
   (C8_form_fallback refRuntime).2.2.2 h3⟩

/-- C10. Three entries `GET https://a.com/x` (status 200, `application/json`),
the same again, and `POST https://a.com/y` (status 201, `text/html`), whatever
their other fields are, give: one host record (`a.com`, request count 3,
methods `[GET, POST]`, paths `[/x, /y]`), `UniqueHosts = 1`, the API records
`GET /x` with call count 2 followed by `POST /y` with call count 1, the method
map `{GET:2, POST:1}`, the status map `{200:2, 201:1}` and the response-type
map `{JSON:2, HTML:1}`. -/
theorem C10_end_to_end (rt : Runtime) (hr : rt.RangeOK) (hs : rt.SortOK) (e1 e2 e3 : Entry) :
    let entries := [setCall e1 "GET" "https://a.com/x" 200 "application/json",
                    setCall e2 "GET" "https://a.com/x" 200 "application/json",
                    setCall e3 "POST" "https://a.com/y" 201 "text/html"]
    let res := AnalyzeHARFile rt entries
    res.Hosts = [sampleHostRecord] ∧
    res.Metadata.UniqueHosts = 1 ∧
    res.Metadata.TotalRequests = 3 ∧
    res.APIs.map (fun r => (r.Method, r.Path, r.CallCount)) =
      [("GET".toList, "/x".toList, 2), ("POST".toList, "/y".toList, 1)] ∧
    res.ExtractedData.Methods = [("GET".toList, 2), ("POST".toList, 1)] ∧
    res.ExtractedData.StatusCodes = [("200".toList, 2), ("201".toList, 1)] ∧
    res.ExtractedData.ResponseTypes = [("JSON".toList, 2), ("HTML".toList, 1)] := by
  intro entries res
  have hH : entries.foldl hostStep [] = [("a.com".toList, sampleHostRecord)] := rfl
  have hA : ∃ r1 r2 : APIInfo, (entries.foldl apiStep []).map Prod.snd = [r1, r2] ∧
      (r1.Method, r1.Path, r1.CallCount) = ("GET".toList, "/x".toList, 2) ∧
      (r2.Method, r2.Path, r2.CallCount) = ("POST".toList, "/y".toList, 1) :=
    ⟨_, _, rfl, rfl, rfl⟩
  have hD1 : (entries.foldl (dataStep rt) initState.data).Methods =
      [("GET".toList, 2), ("POST".toList, 1)] := rfl
  have hD2 : (entries.foldl (dataStep rt) initState.data).StatusCodes =
      [("200".toList, 2), ("201".toList, 1)] := rfl
  have hD3 : (entries.foldl (dataStep rt) initState.data).ResponseTypes =
      [("JSON".toList, 2), ("HTML".toList, 1)] := rfl
  have hdata : res.ExtractedData = entries.foldl (dataStep rt) initState.data := by
    show (aggregate rt entries).data = _
    simp only [aggregate, loop_data]
  refine ⟨?_, ?_, rfl, ?_, ?_, ?_, ?_⟩
  · have hp := hosts_perm rt hr hs entries
    rw [hH] at hp
    exact List.perm_singleton.1 hp
  · show (aggregate rt entries).hostMap.length = 1
    simp only [aggregate, loop_hostMap, initState, hH, List.length_singleton]
  · obtain ⟨r1, r2, hl, h1, h2⟩ := hA
    have hp := apis_perm rt hr hs entries
    rw [hl] at hp
    have hsorted := (results_sorted_by_count rt hs entries).2
    have hc1 : r1.CallCount = 2 := congrArg (fun q => q.2.2) h1
    have hc2 : r2.CallCount = 1 := congrArg (fun q => q.2.2) h2
    have heq := perm_pair_sorted (fun r : APIInfo => r.CallCount) r1 r2 _ hp hsorted
      (by simp only [hc1, hc2]; omega)
    show List.map _ (AnalyzeHARFile rt entries).APIs = _
    rw [heq, List.map_cons, List.map_cons, List.map_nil, h1, h2]
  · rw [hdata, hD1]
  · rw [hdata, hD2]
  · rw [hdata, hD3]

/-- C10 under the reference runtime, with the sample entries that carry no
headers, query items or body. -/
theorem C10_end_to_end_witness :
    refRuntime.RangeOK ∧ refRuntime.SortOK ∧
    (AnalyzeHARFile refRuntime sampleEntries).Hosts = [sampleHostRecord] ∧
    (AnalyzeHARFile refRuntime sampleEntries).APIs.map (fun r => (r.Method, r.Path, r.CallCount)) =
      [("GET".toList, "/x".toList, 2), ("POST".toList, "/y".toList, 1)] :=
  ⟨refRuntime_rangeOK, refRuntime_sortOK,
   (C10_end_to_end refRuntime refRuntime_rangeOK refRuntime_sortOK
      (mkEntry "" "" 0 "") (mkEntry "" "" 0 "") (mkEntry "" "" 0 "")).1,
   (C10_end_to_end refRuntime refRuntime_rangeOK refRuntime_sortOK
      (mkEntry "" "" 0 "") (mkEntry "" "" 0 "") (mkEntry "" "" 0 "")).2.2.2.1⟩

/-- C11 (counterexample).  A map whose only count equals the threshold, and
the empty map, have no key whose count exceeds the threshold (`n = 0`): the
output is the no-data marker alone, so the two header lines are not written
and zero data rows do not come after them. -/
theorem C11_no_header_without_rows :
    ([("x".toList, 1)].filter (fun p : Str × Nat => decide ((p.2 : Int) > 1))).length = 0 ∧
    writeTopItemsFiltered refRuntime [("x".toList, 1)] "name".toList "count".toList 1 =
      ["无数据\n\n".toList] ∧
    "| name | count |\n".toList ∉
      writeTopItemsFiltered refRuntime [("x".toList, 1)] "name".toList "count".toList 1 ∧
    "|------|------|\n".toList ∉
      writeTopItemsFiltered refRuntime [("x".toList, 1)] "name".toList "count".toList 1 ∧
    writeTopItemsFiltered refRuntime [] "name".toList "count".toList 1 =
      ["无数据\n\n".toList] := by
  decide

/-- C11 (amended).  Let `n` be the number of keys whose count exceeds the
threshold.  The sorted items are a rearrangement of these keys in
non-increasing count order.  For `n = 0` the output is the no-data marker
alone, without header lines.  For `1 ≤ n ≤ 20` it is the header line
`| name | count |`, the rule, one data row `| key | count |` per sorted item
and the closing blank line, without ellipsis or total row.  For `n > 20` it is
the header line, the rule, the data rows of the first 20 sorted items, the
ellipsis row `| ... | ... |`, the total row stating `n` in decimal, and the
blank line.  The number of data rows is `min n 20`. -/
theorem C11_top_items_rows (rt : Runtime) (hr : rt.RangeOK) (hs : rt.SortOK)
    (items : List (Str × Nat)) (nameHeader countHeader : Str) (minCount : Int) :
    (sortedItems rt items minCount).Perm
      (items.filter (fun p => decide ((p.2 : Int) > minCount))) ∧
    (sortedItems rt items minCount).Pairwise (fun a b => a.2 ≥ b.2) ∧
    (((sortedItems rt items minCount).take 20).map (fun item =>
            "| ".toList ++ item.1 ++ " | ".toList ++ Nat.toDigits 10 item.2 ++
              " |\n".toList)).length =
      min (items.filter (fun p => decide ((p.2 : Int) > minCount))).length 20 ∧
    ((items.filter (fun p => decide ((p.2 : Int) > minCount))).length = 0 →
      writeTopItemsFiltered rt items nameHeader countHeader minCount =
        ["无数据\n\n".toList]) ∧
    (1 ≤ (items.filter (fun p => decide ((p.2 : Int) > minCount))).length →
      (items.filter (fun p => decide ((p.2 : Int) > minCount))).length ≤ 20 →
      writeTopItemsFiltered rt items nameHeader countHeader minCount =
        ["| ".toList ++ nameHeader ++ " | ".toList ++ countHeader ++ " |\n".toList,
         "|------|------|\n".toList] ++
          (sortedItems rt items minCount).map (fun item =>
            "| ".toList ++ item.1 ++ " | ".toList ++ Nat.toDigits 10 item.2 ++
              " |\n".toList) ++
          ["\n".toList]) ∧
    (20 < (items.filter (fun p => decide ((p.2 : Int) > minCount))).length →
      writeTopItemsFiltered rt items nameHeader countHeader minCount =
        ["| ".toList ++ nameHeader ++ " | ".toList ++ countHeader ++ " |\n".toList,
         "|------|------|\n".toList] ++
          ((sortedItems rt items minCount).take 20).map (fun item =>
            "| ".toList ++ item.1 ++ " | ".toList ++ Nat.toDigits 10 item.2 ++
              " |\n".toList) ++
          ["| ... | ... |\n".toList,
           "| **总计**: ".toList ++
             Nat.toDigits 10 (items.filter (fun p => decide ((p.2 : Int) > minCount))).length ++
             "项 | |\n".toList,
           "\n".toList]) := by
  show (sortedItems rt items minCount).Perm
      (items.filter (fun p => decide ((p.2 : Int) > minCount))) ∧
    (sortedItems rt items minCount).Pairwise (fun a b => a.2 ≥ b.2) ∧
    (((sortedItems rt items minCount).take 20).map dataRow).length =
      min (qualifying items minCount) 20 ∧
    (qualifying items minCount = 0 →
      writeTopItemsFiltered rt items nameHeader countHeader minCount = [noDataMarker]) ∧
    (1 ≤ qualifying items minCount → qualifying items minCount ≤ 20 →
      writeTopItemsFiltered rt items nameHeader countHeader minCount =
        [tableHeader nameHeader countHeader, tableRule] ++
          (sortedItems rt items minCount).map dataRow ++ ["\n".toList]) ∧
    (20 < qualifying items minCount →
      writeTopItemsFiltered rt items nameHeader countHeader minCount =
        [tableHeader nameHeader countHeader, tableRule] ++
          ((sortedItems rt items minCount).take 20).map dataRow ++
          [ellipsisRow, totalRow (qualifying items minCount), "\n".toList])
  have hlen := sortedItems_length rt hr hs items minCount
  refine ⟨sortedItems_perm rt hr hs items minCount, sortedItems_sorted rt hs items minCount,
    ?_, ?_, ?_, ?_⟩
  · rw [List.length_map, List.length_take, hlen, Nat.min_comm]
  · intro h0
    simp only [writeTopItemsFiltered, hlen, h0, if_true]
  · intro h1 h20
    have hne : ¬ qualifying items minCount = 0 := by omega
    have hnlt : ¬ maxItems - 0 < (sortedItems rt items minCount).length := by
      rw [hlen]; simp only [maxItems]; omega
    have htake : (sortedItems rt items minCount).take (maxItems - 0) =
        sortedItems rt items minCount := by
      apply List.take_of_length_le
      rw [hlen]; simp only [maxItems]; omega
    simp only [writeTopItemsFiltered, hlen, hne, if_false, writeItemRows_eq, hnlt, htake,
      List.append_nil]
    rw [hlen] at hnlt
    simp only [hnlt, if_false, List.append_nil]
  · intro h20
    have hne : ¬ qualifying items minCount = 0 := by omega
    have hlt : maxItems - 0 < qualifying items minCount := by
      simp only [maxItems]; omega
    simp only [writeTopItemsFiltered, hlen, hne, if_false, writeItemRows_eq, hlt, if_true]
    simp [maxItems]

/-- C11 (amended) under the reference runtime.  The 25 keys `k1` .. `k25`, each
counted twice, give the header line, the rule, 20 data rows, one ellipsis row,
one total row stating 25 and the blank line; four keys of which three exceed
the threshold give three data rows in non-increasing count order and neither
ellipsis nor total row. -/
theorem C11_top_items_rows_witness :
    refRuntime.RangeOK ∧ refRuntime.SortOK ∧
    (sample25.filter (fun p => decide ((p.2 : Int) > 1))).length = 25 ∧
    writeTopItemsFiltered refRuntime sample25 "name".toList "count".toList 1 =
      ["| name | count |\n".toList, "|------|------|\n".toList,
       "| k1 | 2 |\n".toList,
       "| k2 | 2 |\n".toList,
       "| k3 | 2 |\n".toList,
       "| k4 | 2 |\n".toList,
       "| k5 | 2 |\n".toList,
       "| k6 | 2 |\n".toList,
       "| k7 | 2 |\n".toList,
       "| k8 | 2 |\n".toList,
       "| k9 | 2 |\n".toList,
       "| k10 | 2 |\n".toList,
       "| k11 | 2 |\n".toList,
       "| k12 | 2 |\n".toList,
       "| k13 | 2 |\n".toList,
       "| k14 | 2 |\n".toList,
       "| k15 | 2 |\n".toList,
       "| k16 | 2 |\n".toList,
       "| k17 | 2 |\n".toList,
       "| k18 | 2 |\n".toList,
       "| k19 | 2 |\n".toList,
       "| k20 | 2 |\n".toList,
       "| ... | ... |\n".toList, "| **总计**: 25项 | |\n".toList, "\n".toList] ∧
    writeTopItemsFiltered refRuntime
        [("a".toList, 2), ("b".toList, 5), ("c".toList, 1), ("d".toList, 3)]
        "name".toList "count".toList 1 =
      ["| name | count |\n".toList, "|------|------|\n".toList, "| b | 5 |\n".toList,
       "| d | 3 |\n".toList, "| a | 2 |\n".toList, "\n".toList] :=
  ⟨refRuntime_rangeOK, refRuntime_sortOK, by decide,
   ((C11_top_items_rows refRuntime refRuntime_rangeOK refRuntime_sortOK sample25
      "name".toList "count".toList 1).2.2.2.2.2 (by decide)).trans (by decide),
   ((C11_top_items_rows refRuntime refRuntime_rangeOK refRuntime_sortOK
      [("a".toList, 2), ("b".toList, 5), ("c".toList, 1), ("d".toList, 3)]
      "name".toList "count".toList 1).2.2.2.2.1 (by decide) (by decide)).trans (by decide)⟩

/-- C12. The output of `writeTopItemsFiltered` is exactly the no-data marker
(`无数据` and a blank line) if and only if no key has a count strictly greater
than the threshold; this holds for the list of written strings and for their
concatenation, and in that case the table header line is neither among the
written strings nor a part of their concatenation.  Otherwise the output is not
the marker and starts with the header line `| name | count |`, the rule, and
the data row `| key | count |` of a key whose count exceeds the threshold. -/
theorem C12_no_data_marker (rt : Runtime) (hr : rt.RangeOK) (hs : rt.SortOK)
    (items : List (Str × Nat)) (nameHeader countHeader : Str) (minCount : Int) :
    (writeTopItemsFiltered rt items nameHeader countHeader minCount = ["无数据\n\n".toList] ↔
      ∀ p ∈ items, ¬ (p.2 : Int) > minCount) ∧
    ((writeTopItemsFiltered rt items nameHeader countHeader minCount).flatten =
        "无数据\n\n".toList ↔
      ∀ p ∈ items, ¬ (p.2 : Int) > minCount) ∧
    ((∀ p ∈ items, ¬ (p.2 : Int) > minCount) →
      ("| ".toList ++ nameHeader ++ " | ".toList ++ countHeader ++ " |\n".toList) ∉
        writeTopItemsFiltered rt items nameHeader countHeader minCount ∧
      ¬ ("| ".toList ++ nameHeader ++ " | ".toList ++ countHeader ++ " |\n".toList) <:+:
        (writeTopItemsFiltered rt items nameHeader countHeader minCount).flatten) ∧
    ((∃ p ∈ items, (p.2 : Int) > minCount) →
      writeTopItemsFiltered rt items nameHeader countHeader minCount ≠ ["无数据\n\n".toList] ∧
      ∃ (first : Str × Nat) (rest : List Str),
        first ∈ items ∧ (first.2 : Int) > minCount ∧
        writeTopItemsFiltered rt items nameHeader countHeader minCount =
          ("| ".toList ++ nameHeader ++ " | ".toList ++ countHeader ++ " |\n".toList) ::
            "|------|------|\n".toList ::
            ("| ".toList ++ first.1 ++ " | ".toList ++ Nat.toDigits 10 first.2 ++
              " |\n".toList) :: rest) := by
  have hperm := sortedItems_perm rt hr hs items minCount
  have hzero : (sortedItems rt items minCount).length = 0 ↔
      ∀ p ∈ items, ¬ (p.2 : Int) > minCount := by
    rw [hperm.length_eq, List.length_eq_zero, List.filter_eq_nil_iff]
    simp only [decide_eq_true_eq]
  have hshape : ¬ (sortedItems rt items minCount).length = 0 →
      ∃ (first : Str × Nat) (rest : List Str),
        first ∈ items ∧ (first.2 : Int) > minCount ∧
        writeTopItemsFiltered rt items nameHeader countHeader minCount =
          tableHeader nameHeader countHeader :: tableRule :: dataRow first :: rest := by
    intro hne
    cases hsorted : sortedItems rt items minCount with
    | nil => rw [hsorted] at hne; exact absurd rfl hne
    | cons first others =>
      have hmem : first ∈ items.filter (fun p => decide ((p.2 : Int) > minCount)) :=
        hperm.subset (hsorted ▸ List.mem_cons_self _ _)
      have hmem' := List.mem_filter.1 hmem
      refine ⟨first, writeItemRows (first :: others).length 1 others ++ ["\n".toList], hmem'.1,
        by simpa using hmem'.2, ?_⟩
      simp [writeTopItemsFiltered, hsorted, writeItemRows, maxItems]
  have hmarker : (writeTopItemsFiltered rt items nameHeader countHeader minCount =
      [noDataMarker] ↔ ∀ p ∈ items, ¬ (p.2 : Int) > minCount) := by
    rw [← hzero]
    constructor
    · intro h
      by_contra hne
      obtain ⟨first, rest, _, _, heq⟩ := hshape hne
      rw [heq] at h
      exact absurd (congrArg List.length h) (by simp)
    · intro h
      simp only [writeTopItemsFiltered, h, if_true]
  refine ⟨hmarker, ?_, ?_, ?_⟩
  · show (writeTopItemsFiltered rt items nameHeader countHeader minCount).flatten =
        noDataMarker ↔ _
    rw [← hzero]
    constructor
    · intro h
      by_contra hne
      obtain ⟨first, rest, _, _, heq⟩ := hshape hne
      rw [heq] at h
      have hhead := congrArg List.head? h
      revert hhead
      simp [tableHeader, noDataMarker]
    · intro h
      simp only [writeTopItemsFiltered, h, if_true]
      simp
  · intro hall
    rw [hmarker.2 hall]
    constructor
    · intro hin
      have heq := List.mem_singleton.1 hin
      have hhead := congrArg List.head? heq
      revert hhead
      simp [noDataMarker]
    · intro hin
      have hsub : '|' ∈ [noDataMarker].flatten :=
        hin.subset (by simp)
      revert hsub
      decide
  · rintro ⟨p, hp, hgt⟩
    have hne : ¬ (sortedItems rt items minCount).length = 0 :=
      fun h0 => (hzero.1 h0) p hp hgt
    exact ⟨fun h => hne (hzero.2 (hmarker.1 h)), hshape hne⟩

/-- C12 under the reference runtime: a map whose only count equals the
threshold gives the marker and nothing else; a map with one key above the
threshold gives the header line, the rule, the row of that key and the blank
line. -/
theorem C12_no_data_marker_witness :
    refRuntime.RangeOK ∧ refRuntime.SortOK ∧
    writeTopItemsFiltered refRuntime [("x".toList, 1)] "name".toList "count".toList 1 =
      ["无数据\n\n".toList] ∧
    (∃ (first : Str × Nat) (rest : List Str),
      first ∈ [("a".toList, 1), ("b".toList, 3)] ∧ (first.2 : Int) > 1 ∧
      writeTopItemsFiltered refRuntime [("a".toList, 1), ("b".toList, 3)]
          "name".toList "count".toList 1 =
        ("| ".toList ++ "name".toList ++ " | ".toList ++ "count".toList ++ " |\n".toList) ::
          "|------|------|\n".toList ::
          ("| ".toList ++ first.1 ++ " | ".toList ++ Nat.toDigits 10 first.2 ++
            " |\n".toList) :: rest) ∧
    writeTopItemsFiltered refRuntime [("a".toList, 1), ("b".toList, 3)]
        "name".toList "count".toList 1 =
      ["| name | count |\n".toList, "|------|------|\n".toList, "| b | 3 |\n".toList,
       "\n".toList] :=
  ⟨refRuntime_rangeOK, refRuntime_sortOK,
   (C12_no_data_marker refRuntime refRuntime_rangeOK refRuntime_sortOK [("x".toList, 1)]
      "name".toList "count".toList 1).1.2 (by decide),
   ((C12_no_data_marker refRuntime refRuntime_rangeOK refRuntime_sortOK
      [("a".toList, 1), ("b".toList, 3)] "name".toList "count".toList 1).2.2.2
      ⟨("b".toList, 3), by decide, by decide⟩).2,
   by decide⟩

/-- C13 (evaluation at the failing input).  For every result the host section
and the API section write their table header and never the no-data marker.
For the result of a file without entries, which has no hosts and no APIs, both
sections consist of the title, the table header, the rule and a blank line: a
table header with zero rows. -/
theorem C13_empty_tables_have_headers :
    (∀ result : UniversalAnalysisResult,
      hostTableHeader ∈ hostSection result ∧ noDataMarker ∉ hostSection result ∧
      apiTableHeader ∈ apiSection result ∧ noDataMarker ∉ apiSection result) ∧
    emptyResult.Hosts = [] ∧ emptyResult.APIs = [] ∧
    hostSection emptyResult =
      ["## 🌐 主机统计\n\n".toList, hostTableHeader, hostTableRule, "\n".toList] ∧
    apiSection emptyResult =
      ["## 🔗 热门API (调用次数 > 1)\n\n".toList, apiTableHeader, apiTableRule, "\n".toList] ∧
    (∀ (header : ReportHeader) (templates : CodeTemplates),
      hostTableHeader ∈ generateMarkdownReport refRuntime header templates emptyResult ∧
      apiTableHeader ∈ generateMarkdownReport refRuntime header templates emptyResult) := by
  refine ⟨fun result => ⟨?_, ?_, ?_, ?_⟩, by decide, by decide, by decide, by decide,
    fun header templates => ⟨?_, ?_⟩⟩
  · simp [hostSection]
  · intro h
    simp only [hostSection, List.mem_append, List.mem_cons, List.mem_singleton, List.mem_map,
      List.not_mem_nil, or_false] at h
    rcases h with ((h | h | h) | ⟨a, _, h⟩) | h
    · revert h; decide
    · revert h; decide
    · revert h; decide
    · have := congrArg List.head? h
      revert this
      simp [hostRow, noDataMarker]
    · revert h; decide
  · simp [apiSection]
  · intro h
    simp only [apiSection, List.mem_append, List.mem_cons, List.mem_singleton, List.mem_map,
      List.not_mem_nil, or_false] at h
    rcases h with ((h | h | h) | ⟨a, _, h⟩) | h
    · revert h; decide
    · revert h; decide
    · revert h; decide
    · have := congrArg List.head? h
      revert this
      simp [apiRow, noDataMarker]
    · revert h; decide
  · simp [generateMarkdownReport, hostSection]
  · simp [generateMarkdownReport, apiSection]

/-- C14 (evaluation at the failing input).  Of two entries, the first has a
timestamp that does not parse and the second parses as the instant 5.  The
parsed instants are `[5]`, yet the tracked start stays at the zero instant (the
tracked end is 5) and `Metadata.TimeSpan` is empty.  With the two entries in
the other order the start is 5 and the time span is not empty. -/
theorem C14_unparsable_first_entry :
    parsedInstants stampRuntime lateStartEntries = [5] ∧
    (aggregate stampRuntime lateStartEntries).startTime = 0 ∧
    (aggregate stampRuntime lateStartEntries).endTime = 5 ∧
    (AnalyzeHARFile stampRuntime lateStartEntries).Metadata.TimeSpan = [] ∧
    (aggregate stampRuntime lateStartEntries.reverse).startTime = 5 ∧
    (AnalyzeHARFile stampRuntime lateStartEntries.reverse).Metadata.TimeSpan =
      "5 - 5 (0分钟)".toList := by
  decide

/-- C15. For a URL `scheme://authority/rest` with scheme `http` or `https` and
a non-empty authority without `/`, `extractHost` returns the authority
unchanged, character for character. -/
theorem C15_extractHost_authority (scheme authority rest : Str)
    (hs : scheme = "http".toList ∨ scheme = "https".toList)
    (hne : authority ≠ []) (hslash : '/' ∉ authority) :
    extractHost (scheme ++ "://".toList ++ authority ++ "/".toList ++ rest) = authority := by
  have hurl : scheme ++ "://".toList ++ authority ++ "/".toList ++ rest =
      scheme ++ "://".toList ++ (authority ++ '/' :: rest) := by
    simp only [List.append_assoc]
    rfl
  have htw := takeWhile_not_slash_append authority rest hslash
  rw [hurl, extractHost_of_scheme scheme _ hs (by rw [htw]; exact hne), htw]

/-- C15 at a URL whose authority has capitals and a port. -/
theorem C15_extractHost_authority_witness :
    "Example.COM:443".toList ≠ [] ∧ '/' ∉ "Example.COM:443".toList ∧
    extractHost ("https".toList ++ "://".toList ++ "Example.COM:443".toList ++ "/".toList ++
      "a/b?x=1".toList) = "Example.COM:443".toList :=
  ⟨by decide, by decide,
   C15_extractHost_authority "https".toList "Example.COM:443".toList "a/b?x=1".toList
     (Or.inr rfl) (by decide) (by decide)⟩

/-- C16 (counterexample).  The texts `xhttp://a.com/y` and
`/r?u=http://x.com/y` begin neither with `http://` nor with `https://`, yet
`extractHost` returns `a.com` and `x.com` and `extractPath` returns `/y`, and
the host block of the loop creates a host record. -/
theorem C16_unanchored_match :
    ¬ "http://".toList <+: "xhttp://a.com/y".toList ∧
    ¬ "https://".toList <+: "xhttp://a.com/y".toList ∧
    extractHost "xhttp://a.com/y".toList = "a.com".toList ∧
    extractPath "xhttp://a.com/y".toList = "/y".toList ∧
    (hostStep [] (mkEntry "GET" "xhttp://a.com/y" 200 "")).map Prod.fst = ["a.com".toList] ∧
    ¬ "http://".toList <+: "/r?u=http://x.com/y".toList ∧
    ¬ "https://".toList <+: "/r?u=http://x.com/y".toList ∧
    extractHost "/r?u=http://x.com/y".toList = "x.com".toList ∧
    extractPath "/r?u=http://x.com/y".toList = "/y".toList := by
  decide

/-- C16 (amended).  For every text that contains no occurrence of `http://` or
`https://` followed by a character other than `/`, `extractHost` returns the
empty string and `extractPath` returns `/`, so an entry with such a URL leaves
the host map as it is. -/
theorem C16_no_url_inside (url : Str) (h : NoURLInside url) :
    extractHost url = [] ∧ extractPath url = "/".toList ∧
    ∀ (m : List (Str × HostInfo)) (e : Entry), e.Request.URL = url → hostStep m e = m := by
  have hh : extractHost url = [] := by
    unfold extractHost hostSubmatch
    rw [no_submatch_of_noURLInside _ url h]
    rfl
  have hp : extractPath url = "/".toList := by
    unfold extractPath
    rw [pathSubmatch_eq, no_submatch_of_noURLInside _ url h]
    rfl
  refine ⟨hh, hp, ?_⟩
  intro m e he
  simp only [hostStep, he, hh, ne_eq, not_true_eq_false, if_false]

/-- C16 (amended) at a relative URL. -/
theorem C16_no_url_inside_witness :
    NoURLInside "/relative/path?x=1".toList ∧
    extractHost "/relative/path?x=1".toList = [] ∧
    extractPath "/relative/path?x=1".toList = "/".toList :=
  have hnot : ¬ "http".toList <:+: "/relative/path?x=1".toList := by decide
  have h : NoURLInside "/relative/path?x=1".toList := fun c _ =>
    ⟨fun hin => hnot (List.IsInfix.trans
        (show "http".toList <:+: "http://".toList ++ [c] from ⟨[], "://".toList ++ [c], rfl⟩) hin),
     fun hin => hnot (List.IsInfix.trans
        (show "http".toList <:+: "https://".toList ++ [c] from ⟨[], "s://".toList ++ [c], rfl⟩)
        hin)⟩
  ⟨h, (C16_no_url_inside "/relative/path?x=1".toList h).1,
   (C16_no_url_inside "/relative/path?x=1".toList h).2.1⟩

/-- C17 (evaluation at the failing input).  The URL `http://a.com?x=/y` is
`http`, `://`, the authority `a.com` and a tail that begins with `?`; the run
of non-slash characters extends over `a.com?x=`, and `extractPath` returns `/y`
instead of `/`. -/
theorem C17_slash_in_query :
    "http://a.com?x=/y".toList =
      "http".toList ++ "://".toList ++ "a.com".toList ++ "?x=/y".toList ∧
    extractPath "http://a.com?x=/y".toList = "/y".toList ∧
    extractHost "http://a.com?x=/y".toList = "a.com?x=".toList ∧
    extractPath "http://a.com#/y".toList = "/y".toList := by
  decide

/-- C18 (counterexample).  One `GET` entry whose query string names `a` twice,
first with the value `1`, then with the value `2`: the record stores the
value `2` of the last occurrence, not the value `1` of the first. -/
theorem C18_last_occurrence_wins :
    (AnalyzeHARFile refRuntime dupQueryEntries).APIs.map (fun r => r.Parameters) =
      [[("a".toList, "2".toList)]] ∧
    dupQueryEntries.map (fun e => e.Request.QueryString.map (fun q => (q.Name, q.Value))) =
      [[("a".toList, "1".toList), ("a".toList, "2".toList)]] := by
  decide

/-- C18 (amended).  Every API record comes from the first entry, in file
order, with the key of the record, and for every parameter name its
`Parameters` map holds the value of the last occurrence of that name in the
query string of that entry (no binding when the name does not occur there);
the query strings of later entries with the same key contribute nothing. -/
theorem C18_sample_values (rt : Runtime) (hr : rt.RangeOK) (hs : rt.SortOK)
    (entries : List Entry) (r : APIInfo) (h : r ∈ (AnalyzeHARFile rt entries).APIs) :
    ∃ e0, entries.find? (fun e => apiKey e = r.Method ++ ' ' :: r.Path) = some e0 ∧
      ∀ name : Str, mapGet r.Parameters name =
        (e0.Request.QueryString.reverse.find? (fun q => decide (q.Name = name))).map
          (fun q => q.Value) := by
  obtain ⟨e0, hfind, _, hrec⟩ := api_record_origin rt hr hs entries r h
  refine ⟨e0, hfind, fun name => ?_⟩
  have hp : r.Parameters = (newAPIInfo e0).Parameters := by rw [hrec]
  rw [hp]
  exact mapGet_foldl_mapSet (fun q : NameValue => q.Name) (fun q => q.Value) _ name

/-- C18 (amended) at the entry with the repeated name, under the reference
runtime. -/
theorem C18_sample_values_witness :
    refRuntime.RangeOK ∧ refRuntime.SortOK ∧
    (∀ r ∈ (AnalyzeHARFile refRuntime dupQueryEntries).APIs,
      ∃ e0, dupQueryEntries.find? (fun e => apiKey e = r.Method ++ ' ' :: r.Path) = some e0 ∧
        ∀ name : Str, mapGet r.Parameters name =
          (e0.Request.QueryString.reverse.find? (fun q => decide (q.Name = name))).map
            (fun q => q.Value)) :=
  ⟨refRuntime_rangeOK, refRuntime_sortOK,
   fun r h => C18_sample_values refRuntime refRuntime_rangeOK refRuntime_sortOK dupQueryEntries r h⟩

/-- C19. For every JSON value, prefix and parameter map, `extractJSONKeys`
is defined (the recursion follows the structure of the value) and increments
the map once for each element of the list of dotted key paths of the value: the
count of every name grows by the number of times the name occurs among these
paths, a name that is not among them keeps its binding, and the keys of the
result are the old keys and the paths.  This holds in particular for an object
body and the empty prefix. -/
theorem C19_json_key_paths :
    (∀ (v : JSONValue) (p : Str) (params : List (Str × Nat)),
      extractJSONKeys v p params = (jsonPaths v p).foldl mapIncr params ∧
      (∀ k : Str, mapCount (extractJSONKeys v p params) k =
        mapCount params k + (jsonPaths v p).countP (fun q => decide (q = k))) ∧
      (∀ k : Str, k ∉ jsonPaths v p → mapGet (extractJSONKeys v p params) k = mapGet params k) ∧
      (∀ k : Str, k ∈ (extractJSONKeys v p params).map Prod.fst ↔
        k ∈ params.map Prod.fst ∨ k ∈ jsonPaths v p)) ∧
    (∀ (members : List (Str × JSONValue)) (params : List (Str × Nat)) (k : Str),
      mapCount (extractJSONKeys (JSONValue.object members) [] params) k =
        mapCount params k +
          (jsonPaths (JSONValue.object members) []).countP (fun q => decide (q = k))) ∧
    jsonPaths (JSONValue.object [sampleMemberA, sampleMemberC]) [] =
      ["a".toList, "a.b".toList, "c".toList] ∧
    jsonPaths (JSONValue.object
        [("a".toList, JSONValue.array [JSONValue.object [("b".toList, JSONValue.null)],
                                       JSONValue.string "s".toList])]) [] =
      ["a".toList, "a[0].b".toList] := by
  have hall : ∀ (v : JSONValue) (p : Str) (params : List (Str × Nat)),
      extractJSONKeys v p params = (jsonPaths v p).foldl mapIncr params ∧
      (∀ k : Str, mapCount (extractJSONKeys v p params) k =
        mapCount params k + (jsonPaths v p).countP (fun q => decide (q = k))) ∧
      (∀ k : Str, k ∉ jsonPaths v p → mapGet (extractJSONKeys v p params) k = mapGet params k) ∧
      (∀ k : Str, k ∈ (extractJSONKeys v p params).map Prod.fst ↔
        k ∈ params.map Prod.fst ∨ k ∈ jsonPaths v p) := by
    intro v p params
    have heq := extractJSONKeys_eq_foldl v p params
    refine ⟨heq, ?_, ?_, ?_⟩
    · intro k
      rw [heq, mapCount_foldl_mapIncr]
    · intro k hk
      rw [heq, mapGet_foldl_mapIncr_of_not_mem _ _ _ hk]
    · intro k
      rw [heq, keys_foldl_mapIncr, mem_foldl_addUniqueString]
  exact ⟨hall, fun members params k => (hall _ _ params).2.1 k, by decide, by decide⟩

/-- C19 at the sample object and a map that binds a name outside its paths. -/
theorem C19_json_key_paths_witness :
    "z".toList ∉ jsonPaths (JSONValue.object [sampleMemberA, sampleMemberC]) [] ∧
    mapGet (extractJSONKeys (JSONValue.object [sampleMemberA, sampleMemberC]) []
        [("z".toList, 3)]) "z".toList = mapGet [("z".toList, 3)] "z".toList :=
  ⟨by decide,
   (C19_json_key_paths.1 (JSONValue.object [sampleMemberA, sampleMemberC]) []
      [("z".toList, 3)]).2.2.1 "z".toList (by decide)⟩

/-- C20 (counterexample).  Two `GET http://h/x`, the first with the headers
`Cookie: c1`, `Pragma: no-cache`, `Cookie: c2`.  Both `Cookie` headers are
important, but the header snapshot of the record holds `Cookie: c2` alone: it
does not hold exactly the important headers of the first entry. -/
theorem C20_repeated_header_last_wins :
    (AnalyzeHARFile refRuntime dupHeaderEntries).APIs.map (fun r => r.Headers) =
      [[("Cookie".toList, "c2".toList)]] ∧
    dupHeaderEntries.map (fun e =>
        (e.Request.Headers.filter (fun h => isImportantHeader h.Name)).map
          (fun h => (h.Name, h.Value))) =
      [[("Cookie".toList, "c1".toList), ("Cookie".toList, "c2".toList)],
       [("Authorization".toList, "t".toList)]] ∧
    (∀ r ∈ (AnalyzeHARFile refRuntime dupHeaderEntries).APIs,
      ("Cookie".toList, "c1".toList) ∉ r.Headers) := by
  decide

/-- C20 (amended).  Every API record of the result carries the method, URL,
host, path, response type, status code, parameters and headers captured from
the first entry, in file order, with its key.  Its header snapshot is filled
from the headers of that entry whose name is important: the names bound are
exactly the important header names of the entry, each once, and each is bound
to the value of the last important header of the entry with that name; when
the important header names of the entry are distinct the snapshot is exactly
the list of the important headers of the entry.  Every entry has a record with
its key.  Processing an entry whose key is already bound increments
`CallCount` by one, leaves every other field of the record as it is, and leaves
the records of the other keys as they are. -/
theorem C20_first_entry_snapshot (rt : Runtime) (hr : rt.RangeOK) (hs : rt.SortOK)
    (entries : List Entry) :
    (∀ r ∈ (AnalyzeHARFile rt entries).APIs,
      ∃ e0, entries.find? (fun e => apiKey e = r.Method ++ ' ' :: r.Path) = some e0 ∧
        r.Method = e0.Request.Method ∧
        r.URL = e0.Request.URL ∧
        r.Host = extractHost e0.Request.URL ∧
        r.Path = extractPath e0.Request.URL ∧
        r.ResponseType = simplifyContentType e0.Response.Content.MimeType ∧
        r.StatusCode = e0.Response.Status ∧
        r.Parameters =
          e0.Request.QueryString.foldl (fun m q => mapSet m q.Name q.Value) [] ∧
        r.Headers =
          (e0.Request.Headers.filter (fun h => isImportantHeader h.Name)).foldl
            (fun m h => mapSet m h.Name h.Value) [] ∧
        (∀ name : Str, mapGet r.Headers name =
          ((e0.Request.Headers.filter (fun h => isImportantHeader h.Name)).reverse.find?
            (fun h => decide (h.Name = name))).map (fun h => h.Value)) ∧
        (r.Headers.map Prod.fst).Nodup ∧
        (∀ name : Str, name ∈ r.Headers.map Prod.fst ↔
          ∃ h ∈ e0.Request.Headers, h.Name = name ∧ isImportantHeader h.Name = true) ∧
        (∀ name value : Str, (name, value) ∈ r.Headers →
          { Name := name, Value := value } ∈ e0.Request.Headers ∧
            isImportantHeader name = true) ∧
        (((e0.Request.Headers.filter (fun h => isImportantHeader h.Name)).map
            (fun h => h.Name)).Nodup →
          r.Headers = (e0.Request.Headers.filter (fun h => isImportantHeader h.Name)).map
            (fun h => (h.Name, h.Value)))) ∧
    (∀ e ∈ entries, ∃ r ∈ (AnalyzeHARFile rt entries).APIs,
      r.Method ++ ' ' :: r.Path = apiKey e) ∧
    (∀ (m : List (Str × APIInfo)) (e : Entry) (r : APIInfo),
      mapGet m (apiKey e) = some r →
        mapGet (apiStep m e) (apiKey e) = some { r with CallCount := r.CallCount + 1 } ∧
        ∀ k : Str, k ≠ apiKey e → mapGet (apiStep m e) k = mapGet m k) := by
  refine ⟨?_, ?_, ?_⟩
  · intro r hmem
    obtain ⟨e0, hfind, _, hrec⟩ := api_record_origin rt hr hs entries r hmem
    have hH : r.Headers = (e0.Request.Headers.filter (fun h => isImportantHeader h.Name)).foldl
        (fun m h => mapSet m h.Name h.Value) [] := by
      rw [hrec]
      exact newAPIInfo_headers e0
    have hget : ∀ name : Str, mapGet r.Headers name =
        ((e0.Request.Headers.filter (fun h => isImportantHeader h.Name)).reverse.find?
          (fun h => decide (h.Name = name))).map (fun h => h.Value) := by
      intro name
      rw [hH]
      exact mapGet_foldl_mapSet (fun h : NameValue => h.Name) (fun h => h.Value) _ name
    have hnd : (r.Headers.map Prod.fst).Nodup := by
      rw [hH, keys_foldl_mapSet]
      exact nodup_foldl_addUniqueString _ _ List.nodup_nil
    refine ⟨e0, hfind, by rw [hrec]; rfl, by rw [hrec]; rfl, by rw [hrec]; rfl,
      by rw [hrec]; rfl, by rw [hrec]; rfl, by rw [hrec]; rfl, by rw [hrec]; rfl, hH, hget, hnd,
      ?_, ?_, ?_⟩
    · intro name
      rw [hH, keys_foldl_mapSet, mem_foldl_addUniqueString]
      simp only [List.map_nil, List.not_mem_nil, false_or, List.mem_map, List.mem_filter]
      constructor
      · rintro ⟨h, ⟨hh, himp⟩, hname⟩
        exact ⟨h, hh, hname, himp⟩
      · rintro ⟨h, hh, hname, himp⟩
        exact ⟨h, ⟨hh, himp⟩, hname⟩
    · intro name value hb
      have hg := mem_mapGet _ hnd name value hb
      rw [hget] at hg
      obtain ⟨h, hf, hv⟩ := Option.map_eq_some'.1 hg
      have hmem' := List.mem_of_find?_eq_some hf
      have hname := List.find?_some hf
      simp only [decide_eq_true_eq] at hname
      rw [List.mem_reverse, List.mem_filter] at hmem'
      subst hname
      subst hv
      exact ⟨hmem'.1, hmem'.2⟩
    · intro hdistinct
      rw [hH, foldl_mapSet_of_nodup (fun h : NameValue => h.Name) (fun h => h.Value) _ []
        hdistinct (fun _ _ hin => by simp at hin), List.nil_append]
  · intro e he
    have hk : apiKey e ∈ (entries.foldl apiStep []).map Prod.fst :=
      (apiMap_mem_key entries (apiKey e)).2 ⟨e, he, rfl⟩
    rw [← apiMap_keys_of_records] at hk
    obtain ⟨r, hr', hkey⟩ := List.mem_map.1 hk
    exact ⟨r, (apis_perm rt hr hs entries).mem_iff.2 hr', hkey⟩
  · intro m e r hget
    constructor
    · simp only [apiStep, hget, Option.getD_some, mapGet_mapSet_self, bumpCallCount]
    · intro k hk
      simp only [apiStep]
      exact mapGet_mapSet_ne _ _ _ _ (fun e' => hk e'.symm)

/-- C20 (amended) under the reference runtime at the two entries of which the
first repeats the `Cookie` header: the one record carries the URL, the status
and the last `Cookie` value of the first entry and has been called twice. -/
theorem C20_first_entry_snapshot_witness :
    refRuntime.RangeOK ∧ refRuntime.SortOK ∧
    (∀ r ∈ (AnalyzeHARFile refRuntime dupHeaderEntries).APIs,
      ∃ e0, dupHeaderEntries.find? (fun e => apiKey e = r.Method ++ ' ' :: r.Path) = some e0 ∧
        r.Method = e0.Request.Method ∧
        r.URL = e0.Request.URL ∧
        r.Host = extractHost e0.Request.URL ∧
        r.Path = extractPath e0.Request.URL ∧
        r.ResponseType = simplifyContentType e0.Response.Content.MimeType ∧
        r.StatusCode = e0.Response.Status ∧
        r.Parameters =
          e0.Request.QueryString.foldl (fun m q => mapSet m q.Name q.Value) [] ∧
        r.Headers =
          (e0.Request.Headers.filter (fun h => isImportantHeader h.Name)).foldl
            (fun m h => mapSet m h.Name h.Value) [] ∧
        (∀ name : Str, mapGet r.Headers name =
          ((e0.Request.Headers.filter (fun h => isImportantHeader h.Name)).reverse.find?
            (fun h => decide (h.Name = name))).map (fun h => h.Value)) ∧
        (r.Headers.map Prod.fst).Nodup ∧
        (∀ name : Str, name ∈ r.Headers.map Prod.fst ↔
          ∃ h ∈ e0.Request.Headers, h.Name = name ∧ isImportantHeader h.Name = true) ∧
        (∀ name value : Str, (name, value) ∈ r.Headers →
          { Name := name, Value := value } ∈ e0.Request.Headers ∧
            isImportantHeader name = true) ∧
        (((e0.Request.Headers.filter (fun h => isImportantHeader h.Name)).map
            (fun h => h.Name)).Nodup →
          r.Headers = (e0.Request.Headers.filter (fun h => isImportantHeader h.Name)).map
            (fun h => (h.Name, h.Value)))) ∧
    (AnalyzeHARFile refRuntime dupHeaderEntries).APIs.map (fun r => (r.URL, r.CallCount)) =
      [("http://h/x".toList, 2)] ∧
    (AnalyzeHARFile refRuntime dupHeaderEntries).APIs.map (fun r => r.StatusCode) = [200] ∧
    (AnalyzeHARFile refRuntime dupHeaderEntries).APIs.map (fun r => r.Headers) =
      [[("Cookie".toList, "c2".toList)]] :=
  ⟨refRuntime_rangeOK, refRuntime_sortOK,
   (C20_first_entry_snapshot refRuntime refRuntime_rangeOK refRuntime_sortOK dupHeaderEntries).1,
   by decide, by decide, by decide⟩

/-- C21. For every list of `N` entries the call counts of the records of the
API list add up to `N`, which is `Metadata.TotalRequests`, whatever the
methods and URLs are, and the request counts of the records of the host list
add up to the number of entries whose extracted host is not empty. -/
theorem C21_counts_add_up (rt : Runtime) (hr : rt.RangeOK) (hs : rt.SortOK)
    (entries : List Entry) :
    ((AnalyzeHARFile rt entries).APIs.map (fun r => r.CallCount)).sum = entries.length ∧
    (AnalyzeHARFile rt entries).Metadata.TotalRequests = entries.length ∧
    ((AnalyzeHARFile rt entries).Hosts.map (fun r => r.RequestCount)).sum =
      entries.countP (fun e => decide (extractHost e.Request.URL ≠ [])) := by
  refine ⟨?_, rfl, ?_⟩
  · rw [((apis_perm rt hr hs entries).map (fun r => r.CallCount)).sum_eq, List.map_map]
    have h := sum_foldl_apiStep entries []
    simpa using h
  · rw [((hosts_perm rt hr hs entries).map (fun r => r.RequestCount)).sum_eq, List.map_map]
    have h := sum_foldl_hostStep entries []
    simpa using h

/-- C21 under the reference runtime for three entries, one of them with an
empty host, and for the two entries that share an API key. -/
theorem C21_counts_add_up_witness :
    refRuntime.RangeOK ∧ refRuntime.SortOK ∧
    ((AnalyzeHARFile refRuntime mixedEntries).APIs.map (fun r => r.CallCount)).sum = 3 ∧
    ((AnalyzeHARFile refRuntime mixedEntries).Hosts.map (fun r => r.RequestCount)).sum = 2 ∧
    mixedEntries.map (fun e => extractHost e.Request.URL) = [[], "a".toList, "a".toList] ∧
    ((AnalyzeHARFile refRuntime collidingEntries).APIs.map (fun r => r.CallCount)).sum = 2 :=
  ⟨refRuntime_rangeOK, refRuntime_sortOK,
   (C21_counts_add_up refRuntime refRuntime_rangeOK refRuntime_sortOK mixedEntries).1,
   (C21_counts_add_up refRuntime refRuntime_rangeOK refRuntime_sortOK mixedEntries).2.2.trans
     (by decide),
   by decide,
   (C21_counts_add_up refRuntime refRuntime_rangeOK refRuntime_sortOK collidingEntries).1⟩

end HarAnalyzer
